import Mathlib

/-!
Verification of the route/solution data model and the neighborhood-move
generators of the multiTrip_multiVisit tabu-search engine.

The development shallowly embeds the Rust sources:
- `src/routes.rs`: `_RouteData::_construct`, `Route::push`/`pop`,
  `Route::inter_route`, `Route::inter_route_3`, `Route::intra_route`.
- `src/solutions.rs`: `Solution::new`, `Solution::cost`,
  `Solution::hamming_distance`, the global penalty coefficients
  (`_update_violation`, `destroy_and_repair`), and the elite-set insertion of
  `_record_new_solution`.
- `src/neighborhoods.rs`: the tabu-list maintenance step of
  `Neighborhood::search` and the `asymmetric` both-directions dispatch of
  `iterate_route_j`.

Numeric values (`f64` in the source) are modelled by `ℚ` with exact
arithmetic; customer indices (`usize`) by `ℕ`; `Vec<usize>` by `List ℕ`.
Imperative loops that mutate buffers in place are translated to `List.foldl`
over `List.range'` index lists, threading the buffer state exactly as the
source mutates it.

The file is organised as: all definitions first, then the supporting lemmas,
then one theorem per claim (with witnesses).
-/

namespace MTMV

/-! ## Definitions -/

/-! ### List primitives mirroring `Vec` / slice operations -/

/-- `Vec::swap` on a `List ℕ`: exchange the elements at positions `i` and `j`
(both values are read from the original list, as Rust's `swap` does). -/
def swapIdx (l : List ℕ) (i j : ℕ) : List ℕ :=
  (l.set i (l.getD j 0)).set j (l.getD i 0)

/-- The multiset of interior (served) customers of a route: everything except
the first and the last element. -/
def interiorM (l : List ℕ) : Multiset ℕ :=
  ((l.drop 1).dropLast : List ℕ)

/-! ### Claim C3: `_RouteData::_construct` (src/routes.rs lines 22-40)

The Rust constructor asserts `customers.first() == Some(&0)`,
`customers.last() == Some(&0)` and `customers.len() >= 3`, panicking (a
deterministic rejection) when any of them fails, then accumulates the total
distance and weight in a single pass over consecutive pairs.  A panic is
modelled by `none`. -/

structure RouteData where
  customers : List ℕ
  distance : ℚ
  weight : ℚ

/-- Shallow embedding of `_RouteData::_construct`.  The loop
`for i in 0..customers.len() - 1` adds `distances[c[i]][c[i+1]]` to `distance`
and `demands[c[i]]` to `weight`; the pairs `(c[i], c[i+1])` are exactly
`customers.zip customers.tail` and the `c[i]` are `customers.dropLast`. -/
def RouteData.construct (distances : ℕ → ℕ → ℚ) (demands : ℕ → ℚ)
    (customers : List ℕ) : Option RouteData :=
  if customers.head? = some 0 ∧ customers.getLast? = some 0 ∧ 3 ≤ customers.length then
    some { customers := customers
           distance := ((customers.zip customers.tail).map (fun p => distances p.1 p.2)).sum
           weight := (customers.dropLast.map demands).sum }
  else none

/-! ### Claim C10: `Route::push` / `Route::pop` (src/routes.rs lines 64-76)

`push` inserts the new customer at position `customers.len() - 1` (right
before the terminal depot); `pop` removes the element at position
`customers.len() - 2` (the one right before the terminal depot).  Both then
rebuild the route through `Self::new`, which stores the customer sequence
unchanged (see `_RouteData::_construct`), so we track the sequences. -/

def Route.push (customers : List ℕ) (customer : ℕ) : List ℕ :=
  customers.insertIdx (customers.length - 1) customer

def Route.pop (customers : List ℕ) : List ℕ :=
  customers.eraseIdx (customers.length - 2)

/-! ### Claim C7: the global penalty coefficients (src/solutions.rs lines 88-123)

`PENALTY_COEFF` starts as four cells holding `1.0`; `_update_violation`
multiplies by `1.5` when the corresponding violation is positive, divides by
`1.5` otherwise, and stores the result clamped to `[1.0, 1e3]`. -/

/-- `f64::clamp(lo, hi)`: `hi` if above `hi`, `lo` if below `lo`. -/
def clampQ (x lo hi : ℚ) : ℚ := min (max x lo) hi

/-- Shallow embedding of `_update_violation::<N>`: the new value of the
penalty cell as a function of its current value and the violation amount. -/
def update_violation (value violation : ℚ) : ℚ :=
  clampQ (if 0 < violation then value * (3 / 2) else value / (3 / 2)) 1 1000

/-- The value of one penalty coefficient after a run of adaptation steps with
the given violation amounts, starting from the initial value `1`. -/
def penalty_coeff_after (violations : List ℚ) : ℚ :=
  violations.foldl update_violation 1

/-! ### Claim C8: the penalty frame of `Solution::destroy_and_repair`
(src/solutions.rs lines 744-752 and 869-871)

`destroy_and_repair` loads the four coefficients into `old_penalty`, stores
`1e3` into each cell, runs the repair phase (which only reads the
coefficients, through `Solution::cost`; the only writers of `PENALTY_COEFF`
in the whole crate are `_update_violation` and these two store loops), and
finally stores `old_penalty[i]` back into each cell. -/

def PenaltyState := Fin 4 → ℚ

def penaltyStore (s : PenaltyState) (i : Fin 4) (v : ℚ) : PenaltyState :=
  Function.update s i v

/-- The penalty-coefficient state threaded through `destroy_and_repair`:
first component is the state during the repair phase, second component the
state when the call returns. -/
def destroy_and_repair_penalty (p : PenaltyState) : PenaltyState × PenaltyState :=
  let old : Fin 4 → ℚ := fun i => p i
  let during :=
    penaltyStore (penaltyStore (penaltyStore (penaltyStore p 0 1000) 1 1000) 2 1000) 3 1000
  let final :=
    penaltyStore (penaltyStore (penaltyStore (penaltyStore during 0 (old 0)) 1 (old 1)) 2
      (old 2)) 3 (old 3)
  (during, final)

/-! ### Claims C1/C2: `Solution::new`, `Solution::cost`
(src/solutions.rs lines 126-173 and 220-234)

Routes enter `Solution::new` carrying their cached metrics (computed once at
route construction); `Solution::new` only reads them, so the route records
below carry the metric fields as data. -/

structure TruckRouteV where
  customers : List ℕ
  working_time : ℚ
  capacity_violation : ℚ
  waiting_time_violation : ℚ

structure DroneRouteV where
  customers : List ℕ
  working_time : ℚ
  capacity_violation : ℚ
  waiting_time_violation : ℚ
  energy_violation : ℚ
  fixed_time_violation : ℚ

structure Config where
  truck_capacity : ℚ
  drone_capacity : ℚ
  drone_battery : ℚ
  drone_fixed_time : ℚ
  waiting_time_limit : ℚ

structure Solution where
  truck_routes : List (List TruckRouteV)
  drone_routes : List (List DroneRouteV)
  truck_working_time : List ℚ
  drone_working_time : List ℚ
  working_time : ℚ
  energy_violation : ℚ
  capacity_violation : ℚ
  waiting_time_violation : ℚ
  fixed_time_violation : ℚ
  feasible : Bool

/-- Shallow embedding of `Solution::new`.  The two vehicle loops accumulate
per-metric sums (capacity violations are divided by the vehicle capacity per
vehicle-loop iteration; energy/waiting/fixed-time totals are divided by their
scale once after the loops), `working_time` is the running maximum (started
at `0.0`) of each vehicle's summed route working times, and `feasible` is the
conjunction of the four `== 0.0` comparisons. -/
def Solution.new (cfg : Config) (truck_routes : List (List TruckRouteV))
    (drone_routes : List (List DroneRouteV)) : Solution :=
  let working_time :=
    drone_routes.foldl (fun w rs => max w ((rs.map DroneRouteV.working_time).sum))
      (truck_routes.foldl (fun w rs => max w ((rs.map TruckRouteV.working_time).sum)) 0)
  let energy_violation :=
    ((drone_routes.map (fun rs => (rs.map DroneRouteV.energy_violation).sum)).sum) /
      cfg.drone_battery
  let capacity_violation :=
    (truck_routes.map
        (fun rs => (rs.map TruckRouteV.capacity_violation).sum / cfg.truck_capacity)).sum +
      (drone_routes.map
        (fun rs => (rs.map DroneRouteV.capacity_violation).sum / cfg.drone_capacity)).sum
  let waiting_time_violation :=
    ((truck_routes.map (fun rs => (rs.map TruckRouteV.waiting_time_violation).sum)).sum +
        (drone_routes.map (fun rs => (rs.map DroneRouteV.waiting_time_violation).sum)).sum) /
      cfg.waiting_time_limit
  let fixed_time_violation :=
    ((drone_routes.map (fun rs => (rs.map DroneRouteV.fixed_time_violation).sum)).sum) /
      cfg.drone_fixed_time
  { truck_routes := truck_routes
    drone_routes := drone_routes
    truck_working_time := truck_routes.map (fun rs => (rs.map TruckRouteV.working_time).sum)
    drone_working_time := drone_routes.map (fun rs => (rs.map DroneRouteV.working_time).sum)
    working_time := working_time
    energy_violation := energy_violation
    capacity_violation := capacity_violation
    waiting_time_violation := waiting_time_violation
    fixed_time_violation := fixed_time_violation
    feasible := decide (energy_violation = 0) && decide (capacity_violation = 0) &&
      decide (waiting_time_violation = 0) && decide (fixed_time_violation = 0) }

/-- `f64::mul_add(self, a, b) = self * a + b` (the source uses it purely as a
fused arithmetic shorthand). -/
def mulAdd (a b c : ℚ) : ℚ := a * b + c

/-- Shallow embedding of `Solution::cost`.  The four coefficients
`penalty_coeff::<0>() .. penalty_coeff::<3>()` (energy, capacity, waiting
time, fixed time) are passed explicitly as `p0 .. p3`; `powf` abstracts
`f64::powf`, applied to the run-wide constant `CONFIG.penalty_exponent`. -/
def Solution.cost (powf : ℚ → ℚ → ℚ) (penalty_exponent : ℚ) (p0 p1 p2 p3 : ℚ)
    (s : Solution) : ℚ :=
  s.working_time *
    powf
      (mulAdd p3 s.fixed_time_violation
        (mulAdd p2 s.waiting_time_violation
          (mulAdd p1 s.capacity_violation (mulAdd p0 s.energy_violation 1))))
      penalty_exponent

/-! ### Claim C5: tabu-list maintenance in `Neighborhood::search`
(src/neighborhoods.rs lines 612-628)

After picking the best candidate, `search` sorts its attribute vector `tabu`
and then updates the operator's tabu list: if the (sorted) attribute is
already present at `index`, `tabu_list[index..].rotate_left(1)` promotes it
to the most-recent (last) position; otherwise it is pushed and, if the list
now exceeds `tabu_size`, the oldest entry (`remove(0)`) is evicted. -/

/-- Shallow embedding of the tabu-list update step of `Neighborhood::search`,
applied to the already-sorted attribute vector `tabu`. -/
def search_update_tabu (tabu_list : List (List ℕ)) (tabu : List ℕ)
    (tabu_size : ℕ) : List (List ℕ) :=
  match tabu_list.findIdx? (fun x => decide (x = tabu)) with
  | some index => tabu_list.take index ++ (tabu_list.drop index).rotate 1
  | none =>
      let pushed := tabu_list ++ [tabu]
      if tabu_size < pushed.length then pushed.eraseIdx 0 else pushed

/-! ### Claim C6: `Solution::hamming_distance` and the elite set
(src/solutions.rs lines 236-260, 920-974)

`hamming_distance` builds, for each of the two solutions, a successor table
`repr` of size `customers_count + 1` initialised to 0, where
`repr[customers[i]] = customers[i+1]` for every interior position of every
route, and counts the positions where the two tables differ.

`tabu_search` initialises `elite_set` with the root solution
unconditionally (line 924); `_record_new_solution` inserts an improving
feasible neighbor only when `CONFIG.max_elite_size > 0`, first evicting (via
`Iterator::min_by_key`, which returns the first minimum) the member with the
smallest Hamming distance to the just-updated global best when the set is at
capacity. -/

/-- The inner loop of `fill_repr` for one route:
`for i in 1..customers.len() - 1 { repr[customers[i]] = customers[i + 1]; }`. -/
def fillRepr (customers : List ℕ) (r : List ℕ) : List ℕ :=
  (List.range' 1 (customers.length - 2)).foldl
    (fun r i => r.set (customers.getD i 0) (customers.getD (i + 1) 0)) r

/-- The successor table of a solution (`fill_repr` over truck routes, then
over drone routes, starting from `vec![0; customers_count + 1]`). -/
def Solution.reprOf (n : ℕ) (s : Solution) : List ℕ :=
  let r0 := List.replicate (n + 1) 0
  let r1 := s.truck_routes.foldl
    (fun r rs => rs.foldl (fun r route => fillRepr route.customers r) r) r0
  s.drone_routes.foldl
    (fun r rs => rs.foldl (fun r route => fillRepr route.customers r) r) r1

/-- Shallow embedding of `Solution::hamming_distance`: the number of
positions where the two successor tables disagree. -/
def Solution.hamming_distance (n : ℕ) (s other : Solution) : ℕ :=
  ((Solution.reprOf n s).zip (Solution.reprOf n other)).countP
    (fun p => decide (¬p.1 = p.2))

/-- `elite_set` as initialised by `tabu_search` (line 923-924): the root
solution is pushed unconditionally, regardless of `CONFIG.max_elite_size`. -/
def tabu_search_initial_elite (root : Solution) : List Solution := [root]

/-- Rust's `Iterator::min_by_key` over `l.iter().enumerate()`: index of the
first element with minimal key. -/
def min_by_key_idx {α : Type} (f : α → ℕ) (l : List α) : ℕ :=
  match l with
  | [] => 0
  | a :: t =>
      (t.foldl
        (fun (acc : ℕ × ℕ × ℕ) s =>
          if f s < acc.2.1 then (acc.2.2, f s, acc.2.2 + 1)
          else (acc.1, acc.2.1, acc.2.2 + 1))
        (0, f a, 1)).1

/-- The elite-set insertion step of `_record_new_solution` (lines 961-972):
executed only when `max_elite_size > 0`; when the set is at capacity the
member with the smallest key `dist` (Hamming distance to the new best) is
removed before the push. -/
def record_elite_insertion (max_elite_size : ℕ) (dist : Solution → ℕ)
    (elite_set : List Solution) (neighbor : Solution) : List Solution :=
  if 0 < max_elite_size then
    (if elite_set.length = max_elite_size then
        elite_set.eraseIdx (min_by_key_idx dist elite_set)
      else elite_set) ++ [neighbor]
  else elite_set

/-! ### Claims C4/C9: the neighborhood-move generators (src/routes.rs)

Routes are represented by their customer sequences (`Route::new` stores the
sequence unchanged); `Self::_servable` / `T::_servable` are abstracted as
`Bool`-valued predicates (always `true` for trucks, `CONFIG.dronable` lookup
for drones).  Each imperative loop nest that mutates `buffer_i` / `buffer_j`
/ `buffer_k` in place becomes a `List.foldl` over the corresponding
`List.range'` index list, threading `(buffers, results)`; a Rust
`continue` becomes the `else` branch returning the state unchanged. -/

inductive Neighborhood where
  | Move10
  | Move11
  | Move20
  | Move21
  | Move22
  | TwoOpt
  | EjectionChain
deriving DecidableEq

/-- The `asymmetric` test of `iterate_route_j` (src/neighborhoods.rs lines
138-141): for these variants the driver-side search extends the candidate
list of `route_i.inter_route(route_j)` with the swapped-direction search
`route_j.inter_route(route_i)`. -/
def Neighborhood.asymmetric (n : Neighborhood) : Bool :=
  decide (n = Neighborhood.Move10) || decide (n = Neighborhood.Move20) ||
    decide (n = Neighborhood.Move21)

/-- Candidate produced by `inter_route`: `(Option<route_i'>, Option<route_j'>,
tabu)`. -/
abbrev InterCand : Type := Option (List ℕ) × Option (List ℕ) × List ℕ

/-- Candidate produced by `intra_route`: `(route', tabu)`. -/
abbrev IntraCand : Type := List ℕ × List ℕ

/-- Candidate produced by `inter_route_3`: `(Option<route_i'>, route_j',
route_k', tabu)`. -/
abbrev Inter3Cand : Type := Option (List ℕ) × List ℕ × List ℕ × List ℕ

/-- `Neighborhood::Move10` arm of `inter_route` (lines 153-179).  The outer
loop reads `customer_i` from the original sequence, removes it from
`buffer_i`, inserts it at position 1 of `buffer_j`, and slides it rightwards
with `buffer_j.swap(idx_j, idx_j + 1)` after each snapshot; at the end the
buffers are restored by `buffer_i.insert(idx_i, removed)` and
`buffer_j.pop()`. -/
def interMove10 (svT : ℕ → Bool) (cI cJ : List ℕ) : List InterCand :=
  let lI := cI.length
  let lJ := cJ.length
  ((List.range' 1 (lI - 2)).foldl
    (fun (s : List ℕ × List ℕ × List InterCand) idxI =>
      if svT (cI.getD idxI 0) then
        let removed := s.1.getD idxI 0
        let bI := s.1.eraseIdx idxI
        let routeI : Option (List ℕ) := if lI = 3 then none else some bI
        let inner := (List.range' 1 (lJ - 1)).foldl
          (fun (t : List ℕ × List InterCand) idxJ =>
            (swapIdx t.1 idxJ (idxJ + 1), t.2 ++ [(routeI, some t.1, [removed])]))
          (s.2.1.insertIdx 1 removed, s.2.2)
        (bI.insertIdx idxI removed, inner.1.dropLast, inner.2)
      else s)
    (cI, cJ, [])).2.2

/-- `Neighborhood::Move11` arm of `inter_route` (lines 180-201): swap one
interior customer of each route, snapshot, swap back. -/
def interMove11 (svS svT : ℕ → Bool) (cI cJ : List ℕ) : List InterCand :=
  let lI := cI.length
  let lJ := cJ.length
  ((List.range' 1 (lI - 2)).foldl
    (fun (s : List ℕ × List ℕ × List InterCand) idxI =>
      if svT (s.1.getD idxI 0) then
        (List.range' 1 (lJ - 2)).foldl
          (fun (u : List ℕ × List ℕ × List InterCand) idxJ =>
            if svS (u.2.1.getD idxJ 0) then
              let bI := u.1.set idxI (u.2.1.getD idxJ 0)
              let bJ := u.2.1.set idxJ (u.1.getD idxI 0)
              (u.1, u.2.1,
                u.2.2 ++ [(some bI, some bJ, [cI.getD idxI 0, cJ.getD idxJ 0])])
            else u)
          s
      else s)
    (cI, cJ, [])).2.2

/-- `Neighborhood::Move20` arm of `inter_route` (lines 202-234): remove the
adjacent pair at `idx_i`, insert it at positions (1, 2) of `buffer_j`, and
slide it rightwards with the two swaps after each snapshot; restore at the
end (two inserts into `buffer_i`, two pops from `buffer_j`).  The second
`buffer_i.remove(idx_i)` returns the element originally at `idx_i + 1`. -/
def interMove20 (svT : ℕ → Bool) (cI cJ : List ℕ) : List InterCand :=
  let lI := cI.length
  let lJ := cJ.length
  ((List.range' 1 (lI - 3)).foldl
    (fun (s : List ℕ × List ℕ × List InterCand) idxI =>
      if svT (s.1.getD idxI 0) && svT (s.1.getD (idxI + 1) 0) then
        let x := s.1.getD idxI 0
        let bI1 := s.1.eraseIdx idxI
        let y := bI1.getD idxI 0
        let bI := bI1.eraseIdx idxI
        let routeI : Option (List ℕ) := if lI = 4 then none else some bI
        let inner := (List.range' 1 (lJ - 1)).foldl
          (fun (t : List ℕ × List InterCand) idxJ =>
            (swapIdx (swapIdx t.1 (idxJ + 1) (idxJ + 2)) idxJ (idxJ + 1),
              t.2 ++ [(routeI, some t.1, [x, y])]))
          ((s.2.1.insertIdx 1 x).insertIdx 2 y, s.2.2)
        ((bI.insertIdx idxI x).insertIdx (idxI + 1) y,
          inner.1.dropLast.dropLast, inner.2)
      else s)
    (cI, cJ, [])).2.2

/-- `Neighborhood::Move21` arm of `inter_route` (lines 235-260): the pair
from `buffer_i` is exchanged into `buffer_j` via
`swap(buffer_i[idx_i], buffer_j[1])` plus
`buffer_j.insert(2, buffer_i.remove(idx_i + 1))`, then after each snapshot
the pair slides right via `swap(buffer_i[idx_i], buffer_j[idx_j + 2])` and
the two in-place swaps; the post-loop swap/insert/pop restores the
buffers. -/
def interMove21 (svS svT : ℕ → Bool) (cI cJ : List ℕ) : List InterCand :=
  let lI := cI.length
  let lJ := cJ.length
  ((List.range' 1 (lI - 3)).foldl
    (fun (s : List ℕ × List ℕ × List InterCand) idxI =>
      if svT (s.1.getD idxI 0) && svT (s.1.getD (idxI + 1) 0) then
        let bI1 := s.1.set idxI (s.2.1.getD 1 0)
        let bJ1 := s.2.1.set 1 (s.1.getD idxI 0)
        let moved := bI1.getD (idxI + 1) 0
        let bI2 := bI1.eraseIdx (idxI + 1)
        let bJ2 := bJ1.insertIdx 2 moved
        let inner := (List.range' 1 (lJ - 2)).foldl
          (fun (t : List ℕ × List ℕ × List InterCand) idxJ =>
            let res :=
              if svS (t.2.1.getD idxJ 0) then
                t.2.2 ++ [(some t.1, some t.2.1,
                  [t.2.1.getD idxJ 0, t.2.1.getD (idxJ + 1) 0, t.1.getD idxI 0])]
              else t.2.2
            let bi := t.1.set idxI (t.2.1.getD (idxJ + 2) 0)
            let bj := t.2.1.set (idxJ + 2) (t.1.getD idxI 0)
            (bi, swapIdx (swapIdx bj (idxJ + 1) (idxJ + 2)) idxJ (idxJ + 1), res))
          (bI2, bJ2, s.2.2)
        let bi1 := inner.1.set idxI (inner.2.1.getD (lJ - 1) 0)
        let bj1 := inner.2.1.set (lJ - 1) (inner.1.getD idxI 0)
        (bi1.insertIdx (idxI + 1) (bj1.getLast?.getD 0), bj1.dropLast, inner.2.2)
      else s)
    (cI, cJ, [])).2.2

/-- `Neighborhood::Move22` arm of `inter_route` (lines 261-289): swap the
two adjacent pairs, snapshot (the tabu vector reads the swapped buffers),
swap back. -/
def interMove22 (svS svT : ℕ → Bool) (cI cJ : List ℕ) : List InterCand :=
  let lI := cI.length
  let lJ := cJ.length
  ((List.range' 1 (lI - 3)).foldl
    (fun (s : List ℕ × List ℕ × List InterCand) idxI =>
      if svT (s.1.getD idxI 0) && svT (s.1.getD (idxI + 1) 0) then
        (List.range' 1 (lJ - 3)).foldl
          (fun (u : List ℕ × List ℕ × List InterCand) idxJ =>
            if svS (u.2.1.getD idxJ 0) && svS (u.2.1.getD (idxJ + 1) 0) then
              let bI := (u.1.set idxI (u.2.1.getD idxJ 0)).set (idxI + 1)
                (u.2.1.getD (idxJ + 1) 0)
              let bJ := (u.2.1.set idxJ (u.1.getD idxI 0)).set (idxJ + 1)
                (u.1.getD (idxI + 1) 0)
              (u.1, u.2.1,
                u.2.2 ++ [(some bI, some bJ,
                  [bI.getD idxI 0, bI.getD (idxI + 1) 0,
                    bJ.getD idxJ 0, bJ.getD (idxJ + 1) 0])])
            else u)
          s
      else s)
    (cI, cJ, [])).2.2

/-- The backward scan computing `offset_i` / `offset_j` for `TwoOpt` (lines
291-299): starting from `customers.len() - 1`, decrement while the offset
exceeds 1 and the element just below it is servable by the other class. -/
def twoOptOffset (sv : ℕ → Bool) (c : List ℕ) : ℕ → ℕ
  | 0 => 0
  | 1 => 1
  | o + 1 => if sv (c.getD o 0) then twoOptOffset sv c o else o + 1

/-- `Neighborhood::TwoOpt` arm of `inter_route` (lines 290-318): for each
cut pair the new buffers are built from scratch as prefix of one route plus
suffix of the other. -/
def interTwoOpt (svS svT : ℕ → Bool) (cI cJ : List ℕ) : List InterCand :=
  let lI := cI.length
  let lJ := cJ.length
  let offI := twoOptOffset svT cI (lI - 1)
  let offJ := twoOptOffset svS cJ (lJ - 1)
  (List.range' offI (lI - 1 - offI)).flatMap
    (fun idxI =>
      (List.range' offJ (lJ - 1 - offJ)).map
        (fun idxJ =>
          let bI := cI.take idxI ++ cJ.drop idxJ
          let bJ := cJ.take idxJ ++ cI.drop idxI
          (some bI, some bJ, [bI.getD idxI 0, bJ.getD idxJ 0])))

/-- Shallow embedding of `Route::inter_route` (src/routes.rs lines 133-369).
`svS` embeds `Self::_servable` (route I's class), `svT` embeds
`T::_servable` (route J's class).  The remaining variants panic in the
source; modelled as an empty candidate list. -/
def inter_route (svS svT : ℕ → Bool) (cI cJ : List ℕ) :
    Neighborhood → List InterCand
  | Neighborhood.Move10 => interMove10 svT cI cJ
  | Neighborhood.Move11 => interMove11 svS svT cI cJ
  | Neighborhood.Move20 => interMove20 svT cI cJ
  | Neighborhood.Move21 => interMove21 svS svT cI cJ
  | Neighborhood.Move22 => interMove22 svS svT cI cJ
  | Neighborhood.TwoOpt => interTwoOpt svS svT cI cJ
  | Neighborhood.EjectionChain => []

/-- The candidate list examined by `iterate_route_j`
(src/neighborhoods.rs lines 137-148): the forward search, extended for the
asymmetric variants with the swapped-direction search, whose candidate
tuples are flipped back via `(t.1, t.0, t.2)`. -/
def iterate_route_j_neighbors (svI svJ : ℕ → Bool) (cI cJ : List ℕ)
    (n : Neighborhood) : List InterCand :=
  let neighbors := inter_route svI svJ cI cJ n
  if n.asymmetric then
    neighbors ++ (inter_route svJ svI cJ cI n).map (fun t => (t.2.1, t.1, t.2.2))
  else neighbors

/-- `Neighborhood::EjectionChain` arm of `inter_route_3` (src/routes.rs
lines 371-436): remove `remove_x` from `buffer_i`, displace
`buffer_j[idx_j]` into position 1 of `buffer_k` (replacing it in `buffer_j`
by `remove_x`), slide the displaced customer rightwards through `buffer_k`
after each snapshot, then restore (`buffer_j[idx_j] = buffer_k.pop()`,
`buffer_i.insert(idx_i, remove_x)`).  `sv1` embeds `T1::_servable` (route
J's class), `sv2` embeds `T2::_servable` (route K's class). -/
def inter_route_3 (sv1 sv2 : ℕ → Bool) (cI cJ cK : List ℕ) : List Inter3Cand :=
  let lI := cI.length
  let lJ := cJ.length
  let lK := cK.length
  ((List.range' 1 (lI - 2)).foldl
    (fun (s : List ℕ × List ℕ × List ℕ × List Inter3Cand) idxI =>
      if sv1 (s.1.getD idxI 0) then
        let x := s.1.getD idxI 0
        let bI := s.1.eraseIdx idxI
        let routeI : Option (List ℕ) := if bI.length = 2 then none else some bI
        let inner := (List.range' 1 (lJ - 2)).foldl
          (fun (t : List ℕ × List ℕ × List Inter3Cand) idxJ =>
            if sv2 (t.1.getD idxJ 0) then
              let bK1 := t.2.1.insertIdx 1 (t.1.getD idxJ 0)
              let bJ1 := t.1.set idxJ x
              let inner2 := (List.range' 1 (lK - 1)).foldl
                (fun (u : List ℕ × List Inter3Cand) idxK =>
                  (swapIdx u.1 idxK (idxK + 1),
                    u.2 ++ [(routeI, bJ1, u.1, [x, u.1.getD idxK 0])]))
                (bK1, t.2.2)
              (bJ1.set idxJ (inner2.1.getLast?.getD 0), inner2.1.dropLast, inner2.2)
            else t)
          (s.2.1, s.2.2.1, s.2.2.2)
        (bI.insertIdx idxI x, inner.1, inner.2.1, inner.2.2)
      else s)
    (cI, cJ, cK, [])).2.2.2

/-! ### `Route::intra_route` (src/routes.rs lines 439-619) -/

/-- Apply `f` to the slice `l[a..b]` in place (Rust `&mut l[a..b]`). -/
def sliceMap (f : List ℕ → List ℕ) (l : List ℕ) (a b : ℕ) : List ℕ :=
  l.take a ++ f ((l.drop a).take (b - a)) ++ l.drop b

/-- Slice `rotate_left(k)`. -/
def rotL (k : ℕ) (xs : List ℕ) : List ℕ := xs.rotate k

/-- Slice `rotate_right(k)` (the source only uses `k ≤` slice length). -/
def rotR (k : ℕ) (xs : List ℕ) : List ℕ := xs.rotate (xs.length - k)

/-- `Vec::sort` on the tabu attribute vectors. -/
def sortTabu (l : List ℕ) : List ℕ := l.mergeSort (fun a b => decide (a ≤ b))

/-- `Neighborhood::Move10` arm of `intra_route` (lines 446-472): relocate
one customer rightwards (first block) and leftwards (second block); each
outer iteration ends with a slice rotation restoring the buffer. -/
def intraMove10 (c : List ℕ) : List IntraCand :=
  let n := c.length
  let s1 := (List.range' 1 (n - 3)).foldl
    (fun (s : List ℕ × List IntraCand) i =>
      let t := (List.range' i (n - 2 - i)).foldl
        (fun (t : List ℕ × List IntraCand) j =>
          let b := swapIdx t.1 j (j + 1)
          (b, t.2 ++ [(b, [c.getD i 0])]))
        s
      (sliceMap (rotR 1) t.1 i (n - 1), t.2))
    (c, [])
  let s2 := (List.range' 2 (n - 3)).foldl
    (fun (s : List ℕ × List IntraCand) i =>
      let t := ((List.range' 2 (i - 1)).reverse).foldl
        (fun (t : List ℕ × List IntraCand) j =>
          let b := swapIdx t.1 (j - 1) j
          (b, t.2 ++ [(b, [c.getD i 0])]))
        s
      (sliceMap (rotL 1) t.1 1 (i + 1), t.2))
    s1
  s2.2

/-- `Neighborhood::Move11` arm of `intra_route` (lines 473-487): swap the
customer at `i` with each later interior customer; the final
`buffer.swap(i, length - 2)` restores the buffer. -/
def intraMove11 (c : List ℕ) : List IntraCand :=
  let n := c.length
  ((List.range' 1 (n - 3)).foldl
    (fun (s : List ℕ × List IntraCand) i =>
      let t := (List.range' i (n - 2 - i)).foldl
        (fun (t : List ℕ × List IntraCand) j =>
          let b := swapIdx (swapIdx t.1 j (j + 1)) i j
          (b, t.2 ++ [(b, [c.getD i 0, c.getD (j + 1) 0])]))
        s
      (swapIdx t.1 i (n - 2), t.2))
    (c, [])).2

/-- `Neighborhood::Move20` arm of `intra_route` (lines 488-516): relocate an
adjacent pair rightwards (first block) and leftwards (second block). -/
def intraMove20 (c : List ℕ) : List IntraCand :=
  let n := c.length
  let s1 := (List.range' 1 (n - 4)).foldl
    (fun (s : List ℕ × List IntraCand) i =>
      let t := (List.range' (i + 1) (n - 3 - i)).foldl
        (fun (t : List ℕ × List IntraCand) j =>
          let b := swapIdx (swapIdx t.1 j (j + 1)) (j - 1) j
          (b, t.2 ++ [(b, [c.getD i 0, c.getD (i + 1) 0])]))
        s
      (sliceMap (rotR 2) t.1 i (n - 1), t.2))
    (c, [])
  let s2 := (List.range' 2 (n - 4)).foldl
    (fun (s : List ℕ × List IntraCand) i =>
      let t := ((List.range' 1 (i - 1)).reverse).foldl
        (fun (t : List ℕ × List IntraCand) j =>
          let b := swapIdx (swapIdx t.1 (j + 1) (j + 2)) j (j + 2)
          (b, t.2 ++ [(b, [c.getD i 0, c.getD (i + 1) 0])]))
        s
      (sliceMap (rotL 2) t.1 1 (i + 2), t.2))
    s1
  s2.2

/-- `Neighborhood::Move21` arm of `intra_route` (lines 517-548). -/
def intraMove21 (c : List ℕ) : List IntraCand :=
  let n := c.length
  let s1 := (List.range' 1 (n - 4)).foldl
    (fun (s : List ℕ × List IntraCand) i =>
      let t := (List.range' i (n - 3 - i)).foldl
        (fun (t : List ℕ × List IntraCand) j =>
          let b := swapIdx (swapIdx (swapIdx t.1 (j + 1) (j + 2)) j (j + 1)) i j
          (b, t.2 ++ [(b, [c.getD i 0, c.getD (i + 1) 0, c.getD (j + 2) 0])]))
        s
      (sliceMap (rotR 1) (swapIdx t.1 i (n - 3)) (i + 1) (n - 1), t.2))
    (c, [])
  let s2 := (List.range' 2 (n - 4)).foldl
    (fun (s : List ℕ × List IntraCand) i =>
      let t := ((List.range' 1 (i - 1)).reverse).foldl
        (fun (t : List ℕ × List IntraCand) j =>
          let b := swapIdx (swapIdx (swapIdx t.1 (j + 1) (j + 2)) j (j + 2)) (j + 2) (i + 1)
          (b, t.2 ++ [(b, [c.getD i 0, c.getD (i + 1) 0, c.getD j 0])]))
        s
      (sliceMap (rotL 1) (swapIdx t.1 1 (i + 1)) 2 (i + 2), t.2))
    s1
  s2.2

/-- `Neighborhood::Move22` arm of `intra_route` (lines 550-587). -/
def intraMove22 (c : List ℕ) : List IntraCand :=
  let n := c.length
  ((List.range' 1 (n - 5)).foldl
    (fun (s : List ℕ × List IntraCand) i =>
      let b0 := swapIdx (swapIdx s.1 i (i + 2)) (i + 1) (i + 3)
      let t0 : List ℕ × List IntraCand :=
        (b0, s.2 ++
          [(b0, [c.getD i 0, c.getD (i + 1) 0, c.getD (i + 2) 0, c.getD (i + 3) 0])])
      let t := (List.range' (i + 3) (n - 5 - i)).foldl
        (fun (t : List ℕ × List IntraCand) j =>
          let b := swapIdx
            (swapIdx (swapIdx (swapIdx t.1 i (i + 1)) (i + 1) (j + 1)) j (j + 1)) (j - 1) j
          (b, t.2 ++ [(b, [c.getD i 0, c.getD (i + 1) 0, c.getD j 0, c.getD (j + 1) 0])]))
        t0
      (swapIdx (swapIdx t.1 i (n - 3)) (i + 1) (n - 2), t.2))
    (c, [])).2

/-- `Neighborhood::TwoOpt` arm of `intra_route` (lines 588-610): adjacent
swap, then growing right rotations; each outer iteration ends by reversing
the slice `buffer[i..length - 1]`. -/
def intraTwoOpt (c : List ℕ) : List IntraCand :=
  let n := c.length
  ((List.range' 1 (n - 3)).foldl
    (fun (s : List ℕ × List IntraCand) i =>
      let b0 := swapIdx s.1 i (i + 1)
      let t0 : List ℕ × List IntraCand :=
        (b0, s.2 ++ [(b0, [c.getD i 0, c.getD (i + 1) 0])])
      let t := (List.range' (i + 2) (n - 3 - i)).foldl
        (fun (t : List ℕ × List IntraCand) j =>
          let b := sliceMap (rotR 1) t.1 i (j + 1)
          (b, t.2 ++ [(b, [c.getD i 0, c.getD j 0])]))
        t0
      (sliceMap List.reverse t.1 i (n - 1), t.2))
    (c, [])).2

/-- Shallow embedding of `Route::intra_route` (src/routes.rs lines 439-619),
including the final pass sorting each tabu vector.  The `EjectionChain` arm
panics in the source (and `Neighborhood::intra_route` returns before ever
reaching it); modelled as an empty candidate list. -/
def intra_route (c : List ℕ) : Neighborhood → List IntraCand
  | Neighborhood.Move10 => (intraMove10 c).map (fun p => (p.1, sortTabu p.2))
  | Neighborhood.Move11 => (intraMove11 c).map (fun p => (p.1, sortTabu p.2))
  | Neighborhood.Move20 => (intraMove20 c).map (fun p => (p.1, sortTabu p.2))
  | Neighborhood.Move21 => (intraMove21 c).map (fun p => (p.1, sortTabu p.2))
  | Neighborhood.Move22 => (intraMove22 c).map (fun p => (p.1, sortTabu p.2))
  | Neighborhood.TwoOpt => (intraTwoOpt c).map (fun p => (p.1, sortTabu p.2))
  | Neighborhood.EjectionChain => []

/-- The interior-customer content of an optional route (`None` contributes
nothing: the route collapsed to `[0, 0]` and was dropped from its
vehicle). -/
def interiorOptM : Option (List ℕ) → Multiset ℕ
  | none => 0
  | some l => interiorM l

/-- Proof scaffolding for the intra-route invariant: `b` is a buffer reachable
from route `c` by interior permutations (same content, same endpoints, same
length). -/
def routeLike (c b : List ℕ) : Prop :=
  (↑b : Multiset ℕ) = ↑c ∧ b.head? = c.head? ∧ b.getLast? = c.getLast? ∧
    b.length = c.length

/-! ## Supporting lemmas -/

theorem eraseIdx_append_shift (P : List ℕ) (Q : List ℕ) (k : ℕ) :
    (P ++ Q).eraseIdx (P.length + k) = P ++ Q.eraseIdx k := by
  induction P with
  | nil => simp
  | cons a t ih => simp [List.eraseIdx_cons_succ, Nat.succ_add, ih]

theorem insertIdx_append_shift (P : List ℕ) (Q : List ℕ) (k : ℕ) (v : ℕ) :
    (P ++ Q).insertIdx (P.length + k) v = P ++ Q.insertIdx k v := by
  induction P with
  | nil => simp
  | cons a t ih => simp [Nat.succ_add, List.insertIdx_succ_cons, ih]

theorem set_append_shift (P : List ℕ) (Q : List ℕ) (k : ℕ) (v : ℕ) :
    (P ++ Q).set (P.length + k) v = P ++ Q.set k v := by
  induction P with
  | nil => simp
  | cons a t ih => simp [Nat.succ_add, List.set_cons_succ, ih]

theorem getD_append_shift {α : Type} (P : List α) (Q : List α) (k : ℕ) (d : α) :
    (P ++ Q).getD (P.length + k) d = Q.getD k d := by
  induction P with
  | nil => simp
  | cons a t ih => simpa [Nat.succ_add] using ih

theorem swapIdx_append_shift (P : List ℕ) (Q : List ℕ) (i j : ℕ) :
    swapIdx (P ++ Q) (P.length + i) (P.length + j) = P ++ swapIdx Q i j := by
  unfold swapIdx
  rw [getD_append_shift, getD_append_shift, set_append_shift, set_append_shift]

theorem interiorM_decomp (d e : ℕ) (P A S : List ℕ) :
    interiorM ((d :: P) ++ A ++ (S ++ [e])) = (↑P + ↑A + ↑S : Multiset ℕ) := by
  have h : ((d :: P) ++ A ++ (S ++ [e])).drop 1 = P ++ A ++ S ++ [e] := by
    simp
  rw [interiorM, h]
  rw [show P ++ A ++ S ++ [e] = (P ++ A ++ S) ++ [e] by simp]
  rw [List.dropLast_concat]
  simp

theorem update_violation_bounds (value violation : ℚ) :
    1 ≤ update_violation value violation ∧ update_violation value violation ≤ 1000 := by
  unfold update_violation clampQ
  constructor
  · exact le_min (le_trans (le_max_right _ _) (le_refl _)) (by norm_num)
  · exact min_le_right _ _

theorem foldl_update_violation_bounds (violations : List ℚ) :
    ∀ c : ℚ, 1 ≤ c → c ≤ 1000 →
      1 ≤ violations.foldl update_violation c ∧ violations.foldl update_violation c ≤ 1000 := by
  induction violations with
  | nil => exact fun c h1 h2 => ⟨h1, h2⟩
  | cons v vs ih =>
    intro c _ _
    exact ih (update_violation c v) (update_violation_bounds c v).1
      (update_violation_bounds c v).2

theorem min_fold_spec {α : Type} (f : α → ℕ) :
    ∀ (t done : List α) (bi bv : ℕ), bi < done.length →
      (∀ d : α, f (done.getD bi d) = bv) → (∀ x ∈ done, bv ≤ f x) →
      ∃ bi' bv',
        t.foldl
            (fun (acc : ℕ × ℕ × ℕ) s =>
              if f s < acc.2.1 then (acc.2.2, f s, acc.2.2 + 1)
              else (acc.1, acc.2.1, acc.2.2 + 1)) (bi, bv, done.length) =
          (bi', bv', (done ++ t).length) ∧
        bi' < (done ++ t).length ∧ (∀ d : α, f ((done ++ t).getD bi' d) = bv') ∧
        ∀ x ∈ done ++ t, bv' ≤ f x := by
  intro t
  induction t with
  | nil =>
    intro done bi bv h1 h2 h3
    exact ⟨bi, bv, by simp, by simpa using h1, by simpa using h2, by simpa using h3⟩
  | cons s t ih =>
    intro done bi bv h1 h2 h3
    rw [List.foldl_cons]
    by_cases hc : f s < bv
    · rw [if_pos hc]
      dsimp only
      have hstep := ih (done ++ [s]) done.length (f s)
        (by simp)
        (fun d => by
          have hsh := getD_append_shift done [s] 0 d
          rw [Nat.add_zero] at hsh
          rw [hsh]
          rfl)
        (fun x hx => by
          rcases List.mem_append.mp hx with hx | hx
          · exact le_of_lt (lt_of_lt_of_le hc (h3 x hx))
          · simp at hx; subst hx; exact le_refl _)
      rw [show (done ++ [s]).length = done.length + 1 by simp] at hstep
      obtain ⟨bi', bv', heq, hlt, hval, hmin⟩ := hstep
      refine ⟨bi', bv', ?_, ?_, ?_, ?_⟩
      · rw [heq]; simp
      · simpa using hlt
      · intro d; have := hval d; simpa using this
      · intro x hx
        apply hmin
        simpa using hx
    · rw [if_neg hc]
      dsimp only
      have hstep := ih (done ++ [s]) bi bv
        (by simp; omega)
        (fun d => by
          rw [List.getD_append _ _ _ _ h1, h2 d]
        )
        (fun x hx => by
          rcases List.mem_append.mp hx with hx | hx
          · exact h3 x hx
          · simp at hx; subst hx; exact le_of_not_lt hc)
      rw [show (done ++ [s]).length = done.length + 1 by simp] at hstep
      obtain ⟨bi', bv', heq, hlt, hval, hmin⟩ := hstep
      refine ⟨bi', bv', ?_, ?_, ?_, ?_⟩
      · rw [heq]; simp
      · simpa using hlt
      · intro d; have := hval d; simpa using this
      · intro x hx
        apply hmin
        simpa using hx

theorem min_by_key_idx_spec {α : Type} (f : α → ℕ) (l : List α) (hne : l ≠ []) :
    min_by_key_idx f l < l.length ∧
      ∀ d : α, ∀ x ∈ l, f (l.getD (min_by_key_idx f l) d) ≤ f x := by
  match l with
  | [] => exact absurd rfl hne
  | a :: t =>
    obtain ⟨bi', bv', heq, hlt, hval, hmin⟩ :=
      min_fold_spec f t [a] 0 (f a) (by simp) (fun d => by simp) (by simp)
    have hdef : min_by_key_idx f (a :: t) =
        (t.foldl
          (fun (acc : ℕ × ℕ × ℕ) s =>
            if f s < acc.2.1 then (acc.2.2, f s, acc.2.2 + 1)
            else (acc.1, acc.2.1, acc.2.2 + 1)) (0, f a, ([a] : List α).length)).1 := rfl
    rw [hdef, heq]
    refine ⟨by simpa using hlt, fun d x hx => ?_⟩
    have h1 := hval d
    have h2 := hmin x (by simpa using hx)
    simp only [List.singleton_append] at h1
    rw [h1]
    exact h2

theorem foldl_inv {σ ι : Type} (P : σ → Prop) (f : σ → ι → σ) :
    ∀ (l : List ι) (s : σ), (∀ t i, i ∈ l → P t → P (f t i)) → P s → P (l.foldl f s)
  | [], _, _, hs => hs
  | i :: is, s, hstep, hs =>
      foldl_inv P f is (f s i)
        (fun t j hj => hstep t j (List.mem_cons_of_mem i hj))
        (hstep s i (List.mem_cons_self i is) hs)

theorem swap_cons01 (x y : ℕ) (r : List ℕ) : swapIdx (x :: y :: r) 0 1 = y :: x :: r := rfl

theorem swap_cons12 (x y z : ℕ) (r : List ℕ) :
    swapIdx (x :: y :: z :: r) 1 2 = x :: z :: y :: r := rfl

theorem insertIdx_take_drop {α : Type} :
    ∀ (k : ℕ) (l : List α) (v : α), k ≤ l.length →
      l.insertIdx k v = l.take k ++ v :: l.drop k
  | 0, l, v, _ => by simp
  | k + 1, [], v, h => by simp at h
  | k + 1, x :: xs, v, h => by
      simp only [List.insertIdx_succ_cons, List.take_succ_cons, List.drop_succ_cons,
        List.cons_append]
      rw [insertIdx_take_drop k xs v (by simpa using h)]

theorem interiorM_shape (d e : ℕ) (M : List ℕ) : interiorM (d :: (M ++ [e])) = ↑M := by
  have h := interiorM_decomp d e [] M []
  simpa using h

theorem interiorM_short (l : List ℕ) (h : l.length ≤ 2) : interiorM l = 0 := by
  match l with
  | [] => rfl
  | [a] => rfl
  | [a, b] => rfl
  | a :: b :: c :: r => simp at h

theorem exists_shape (l : List ℕ) (h : 2 ≤ l.length) : ∃ d M e, l = d :: (M ++ [e]) := by
  match l, h with
  | x :: xs, h =>
    have hne : xs ≠ [] := by
      intro hc
      rw [hc] at h
      simp at h
    exact ⟨x, xs.dropLast, xs.getLast hne, by rw [List.dropLast_concat_getLast hne]⟩

/-- Replacing the `m`-element segment of `l` at the interior positions
`[a, a + m)` by an arbitrary block `B` removes exactly that segment's content
from the interior multiset and adds `B`'s content. -/
theorem interiorM_gen (l B : List ℕ) (a m : ℕ) (h1 : 1 ≤ a) (h2 : a + m < l.length) :
    interiorM (l.take a ++ B ++ l.drop (a + m)) + ↑((l.drop a).take m) =
      ↑B + interiorM l := by
  obtain ⟨hd, tl, rfl⟩ : ∃ hd tl, l = hd :: tl := by
    match l, h2 with
    | x :: xs, _ => exact ⟨x, xs, rfl⟩
  obtain ⟨a', rfl⟩ : ∃ a', a = a' + 1 := ⟨a - 1, by omega⟩
  have hlen : a' + m < tl.length := by simp at h2; omega
  have hne : tl.drop (a' + m) ≠ [] := by
    rw [ne_eq, List.drop_eq_nil_iff]
    omega
  obtain ⟨S, e, hSe⟩ : ∃ S e, tl.drop (a' + m) = S ++ [e] :=
    ⟨(tl.drop (a' + m)).dropLast, (tl.drop (a' + m)).getLast hne,
      (List.dropLast_concat_getLast hne).symm⟩
  have htl : tl = (tl.take a' ++ ((tl.drop a').take m ++ S)) ++ [e] := by
    conv_lhs => rw [← List.take_append_drop a' tl]
    conv_lhs =>
      rw [show tl.drop a' = (tl.drop a').take m ++ (S ++ [e]) by
        rw [← hSe, ← List.drop_drop, List.take_append_drop]]
    simp
  have e1 : a' + 1 + m = (a' + m) + 1 := by omega
  rw [e1, List.take_succ_cons, List.drop_succ_cons, List.drop_succ_cons, hSe]
  rw [interiorM_decomp]
  conv_rhs =>
    rw [show hd :: tl = hd :: ((tl.take a' ++ ((tl.drop a').take m ++ S)) ++ [e]) by
      rw [← htl]]
  rw [interiorM_shape]
  rw [← Multiset.coe_add, ← Multiset.coe_add]
  abel

theorem interiorM_insertAt (l A : List ℕ) (a : ℕ) (h1 : 1 ≤ a) (h2 : a < l.length) :
    interiorM (l.take a ++ A ++ l.drop a) = ↑A + interiorM l := by
  have h := interiorM_gen l A a 0 h1 (by omega)
  simpa using h

theorem interiorM_replace1 (l A : List ℕ) (a : ℕ) (h1 : 1 ≤ a) (h2 : a + 1 < l.length) :
    interiorM (l.take a ++ A ++ l.drop (a + 1)) + {l.getD a 0} = ↑A + interiorM l := by
  have h := interiorM_gen l A a 1 h1 h2
  have ha : a < l.length := by omega
  have ht : (l.drop a).take 1 = [l.getD a 0] := by
    rw [List.drop_eq_getElem_cons ha, List.getD_eq_getElem l 0 ha]
    rfl
  rw [ht] at h
  simpa using h

theorem interiorM_erase (l : List ℕ) (k : ℕ) (h1 : 1 ≤ k) (h2 : k + 1 < l.length) :
    interiorM (l.eraseIdx k) + {l.getD k 0} = interiorM l := by
  rw [List.eraseIdx_eq_take_drop_succ]
  have h := interiorM_replace1 l [] k h1 h2
  simpa using h

theorem interiorM_setIdx (l : List ℕ) (k v : ℕ) (h1 : 1 ≤ k) (h2 : k + 1 < l.length) :
    interiorM (l.set k v) + {l.getD k 0} = v ::ₘ interiorM l := by
  rw [List.set_eq_take_cons_drop v (show k < l.length by omega)]
  have h := interiorM_replace1 l [v] k h1 h2
  rw [show l.take k ++ [v] ++ l.drop (k + 1) = l.take k ++ v :: l.drop (k + 1) by simp] at h
  rw [h]
  simp [Multiset.singleton_add]

theorem coe_append_cons (A B : List ℕ) (x : ℕ) :
    (↑(A ++ x :: B) : Multiset ℕ) = {x} + ↑A + ↑B := by
  rw [← Multiset.coe_add, ← Multiset.cons_coe, ← Multiset.singleton_add]
  abel

theorem length_swapIdx (l : List ℕ) (i j : ℕ) : (swapIdx l i j).length = l.length := by
  simp [swapIdx]

theorem set_multi (l : List ℕ) (k v : ℕ) (h : k < l.length) :
    (↑(l.set k v) : Multiset ℕ) + {l.getD k 0} = ↑l + {v} := by
  rw [List.set_eq_take_cons_drop v h, List.getD_eq_getElem l 0 h]
  conv_rhs => rw [← List.take_append_drop k l, List.drop_eq_getElem_cons h]
  rw [coe_append_cons, coe_append_cons]
  abel

theorem getD_set_ne' (l : List ℕ) (i j v : ℕ) (h : i ≠ j) :
    (l.set i v).getD j 0 = l.getD j 0 := by
  simp [List.getElem?_set_ne h]

theorem head?_set (l : List ℕ) (k v : ℕ) (h : 1 ≤ k) : (l.set k v).head? = l.head? := by
  cases l with
  | nil => rfl
  | cons x xs =>
    match k, h with
    | k + 1, _ => rfl

theorem getLast?_set (l : List ℕ) (k v : ℕ) (h : k + 1 < l.length) :
    (l.set k v).getLast? = l.getLast? := by
  rw [List.getLast?_eq_getElem?, List.getLast?_eq_getElem?, List.length_set]
  exact List.getElem?_set_ne (by omega)

theorem multiset_swapIdx (l : List ℕ) (i j : ℕ) (hi : i < l.length) (hj : j < l.length) :
    (↑(swapIdx l i j) : Multiset ℕ) = ↑l := by
  by_cases hij : i = j
  · subst hij
    unfold swapIdx
    rw [List.set_set]
    exact add_right_cancel (set_multi l i (l.getD i 0) hi)
  · unfold swapIdx
    have h1 := set_multi l i (l.getD j 0) hi
    have h2 := set_multi (l.set i (l.getD j 0)) j (l.getD i 0) (by simpa using hj)
    rw [getD_set_ne' l i j _ hij] at h2
    exact add_right_cancel (h2.trans h1)

theorem head?_swapIdx (l : List ℕ) (i j : ℕ) (hi : 1 ≤ i) (hj : 1 ≤ j) :
    (swapIdx l i j).head? = l.head? := by
  unfold swapIdx
  rw [head?_set _ _ _ hj, head?_set _ _ _ hi]

theorem getLast?_swapIdx (l : List ℕ) (i j : ℕ) (hi : i + 1 < l.length)
    (hj : j + 1 < l.length) : (swapIdx l i j).getLast? = l.getLast? := by
  unfold swapIdx
  rw [getLast?_set _ _ _ (by simpa using hj), getLast?_set _ _ _ hi]

theorem slice_recomb (l : List ℕ) (a b : ℕ) (hab : a ≤ b) :
    l.take a ++ ((l.drop a).take (b - a) ++ l.drop b) = l := by
  have hd : l.drop b = (l.drop a).drop (b - a) := by
    rw [List.drop_drop]
    congr 1
    omega
  rw [hd, List.take_append_drop, List.take_append_drop]

theorem length_sliceMap (f : List ℕ → List ℕ) (l : List ℕ) (a b : ℕ) (hab : a ≤ b)
    (hf : ∀ xs, (f xs).length = xs.length) :
    (sliceMap f l a b).length = l.length := by
  unfold sliceMap
  have h2 := congrArg List.length (slice_recomb l a b hab)
  simp only [List.length_append] at h2 ⊢
  rw [hf]
  omega

theorem multiset_sliceMap (f : List ℕ → List ℕ) (l : List ℕ) (a b : ℕ) (hab : a ≤ b)
    (hf : ∀ xs, List.Perm (f xs) xs) :
    (↑(sliceMap f l a b) : Multiset ℕ) = ↑l := by
  unfold sliceMap
  conv_rhs => rw [← slice_recomb l a b hab]
  apply Multiset.coe_eq_coe.mpr
  rw [List.append_assoc]
  exact List.Perm.append_left _ (List.Perm.append_right _ (hf _))

theorem head?_take' (l : List ℕ) (a : ℕ) (ha : 1 ≤ a) (hl : l ≠ []) :
    (l.take a).head? = l.head? := by
  cases l with
  | nil => simp at hl
  | cons x xs =>
    match a, ha with
    | a + 1, _ => rfl

theorem getLast?_drop' (l : List ℕ) (b : ℕ) (hb : b < l.length) :
    (l.drop b).getLast? = l.getLast? := by
  rw [List.getLast?_eq_getElem?, List.getLast?_eq_getElem?, List.getElem?_drop,
    List.length_drop]
  congr 1
  omega

theorem head?_sliceMap (f : List ℕ → List ℕ) (l : List ℕ) (a b : ℕ) (ha : 1 ≤ a)
    (hl : l ≠ []) : (sliceMap f l a b).head? = l.head? := by
  unfold sliceMap
  rw [List.append_assoc, List.head?_append, head?_take' l a ha hl]
  cases hh : l.head? with
  | none => rw [List.head?_eq_none_iff] at hh; exact absurd hh hl
  | some z => rfl

theorem getLast?_sliceMap (f : List ℕ → List ℕ) (l : List ℕ) (a b : ℕ)
    (hb : b < l.length) : (sliceMap f l a b).getLast? = l.getLast? := by
  unfold sliceMap
  rw [List.getLast?_append, getLast?_drop' l b hb]
  cases hh : l.getLast? with
  | none =>
    rw [List.getLast?_eq_none_iff] at hh
    subst hh
    simp at hb
  | some z => rfl

theorem routeLike_refl (c : List ℕ) : routeLike c c := ⟨rfl, rfl, rfl, rfl⟩

theorem routeLike_swap (c b : List ℕ) (i j : ℕ) (h : routeLike c b) (hi : 1 ≤ i)
    (hi2 : i + 1 < c.length) (hj : 1 ≤ j) (hj2 : j + 1 < c.length) :
    routeLike c (swapIdx b i j) := by
  obtain ⟨hm, hh, hl, hn⟩ := h
  refine ⟨?_, ?_, ?_, ?_⟩
  · rw [multiset_swapIdx b i j (by omega) (by omega)]
    exact hm
  · rw [head?_swapIdx b i j hi hj]
    exact hh
  · rw [getLast?_swapIdx b i j (by omega) (by omega)]
    exact hl
  · rw [length_swapIdx]
    exact hn

theorem routeLike_slice (c b : List ℕ) (f : List ℕ → List ℕ) (a e : ℕ)
    (h : routeLike c b) (hf : ∀ xs, List.Perm (f xs) xs) (ha : 1 ≤ a) (hae : a ≤ e)
    (he : e < c.length) : routeLike c (sliceMap f b a e) := by
  obtain ⟨hm, hh, hl, hn⟩ := h
  have hne : b ≠ [] := by
    intro hc
    rw [hc] at hn
    simp at hn
    omega
  refine ⟨?_, ?_, ?_, ?_⟩
  · rw [multiset_sliceMap f b a e hae hf]
    exact hm
  · rw [head?_sliceMap f b a e ha hne]
    exact hh
  · rw [getLast?_sliceMap f b a e (by omega)]
    exact hl
  · rw [length_sliceMap f b a e hae (fun xs => (hf xs).length_eq)]
    exact hn

theorem routeLike_interiorM (c b : List ℕ) (h : routeLike c b) (hlen : 2 ≤ c.length) :
    interiorM b = interiorM c := by
  obtain ⟨hm, hh, hl, hn⟩ := h
  obtain ⟨d, M, e, rfl⟩ := exists_shape c hlen
  obtain ⟨d2, M2, e2, rfl⟩ := exists_shape b (by omega)
  have hd : d2 = d := by simpa using hh
  have hee : e2 = e := by
    rw [show d2 :: (M2 ++ [e2]) = (d2 :: M2) ++ [e2] from rfl,
      show d :: (M ++ [e]) = (d :: M) ++ [e] from rfl,
      List.getLast?_concat, List.getLast?_concat] at hl
    exact Option.some.inj hl
  rw [hd, hee] at hm
  rw [hd, hee, interiorM_shape, interiorM_shape]
  rw [← Multiset.cons_coe, ← Multiset.cons_coe] at hm
  have hm2 : (↑(M2 ++ [e]) : Multiset ℕ) = ↑(M ++ [e]) :=
    (Multiset.cons_inj_right d).mp hm
  rw [← Multiset.coe_add, ← Multiset.coe_add] at hm2
  exact add_right_cancel hm2

theorem mem_range'_iff (s k m : ℕ) : m ∈ List.range' s k ↔ s ≤ m ∧ m < s + k := by
  rw [List.mem_range']
  constructor
  · rintro ⟨i, hik, rfl⟩
    omega
  · intro h
    exact ⟨m - s, by omega, by omega⟩

theorem rotR_perm (k : ℕ) (xs : List ℕ) : List.Perm (rotR k xs) xs :=
  xs.rotate_perm (xs.length - k)

theorem rotL_perm (k : ℕ) (xs : List ℕ) : List.Perm (rotL k xs) xs :=
  xs.rotate_perm k

theorem intraMove10_routeLike (c : List ℕ) : ∀ p ∈ intraMove10 c, routeLike c p.1 := by
  intro p hp
  simp only [intraMove10] at hp
  set n := c.length with hn
  set P : List ℕ × List IntraCand → Prop :=
    fun s => routeLike c s.1 ∧ ∀ q ∈ s.2, routeLike c q.1 with hP
  have h0 : P (c, []) := ⟨routeLike_refl c, by simp⟩
  have h1 : P ((List.range' 1 (n - 3)).foldl
      (fun (s : List ℕ × List IntraCand) i =>
        let t := (List.range' i (n - 2 - i)).foldl
          (fun (t : List ℕ × List IntraCand) j =>
            let b := swapIdx t.1 j (j + 1)
            (b, t.2 ++ [(b, [c.getD i 0])]))
          s
        (sliceMap (rotR 1) t.1 i (n - 1), t.2)) (c, [])) := by
    apply foldl_inv P _ _ _ _ h0
    intro t i hi ht
    rw [mem_range'_iff] at hi
    dsimp only
    have hin : P ((List.range' i (n - 2 - i)).foldl
        (fun (t : List ℕ × List IntraCand) j =>
          let b := swapIdx t.1 j (j + 1)
          (b, t.2 ++ [(b, [c.getD i 0])])) t) := by
      apply foldl_inv P _ _ _ _ ht
      intro u j hj hu
      rw [mem_range'_iff] at hj
      dsimp only
      have hb : routeLike c (swapIdx u.1 j (j + 1)) :=
        routeLike_swap c u.1 j (j + 1) hu.1 (by omega) (by omega) (by omega) (by omega)
      refine ⟨hb, fun q hq => ?_⟩
      rcases List.mem_append.mp hq with hq | hq
      · exact hu.2 q hq
      · simp only [List.mem_singleton] at hq
        subst hq
        exact hb
    refine ⟨?_, hin.2⟩
    exact routeLike_slice c _ (rotR 1) i (n - 1) hin.1 (rotR_perm 1) (by omega) (by omega)
      (by omega)
  have h2 : P ((List.range' 2 (n - 3)).foldl
      (fun (s : List ℕ × List IntraCand) i =>
        let t := ((List.range' 2 (i - 1)).reverse).foldl
          (fun (t : List ℕ × List IntraCand) j =>
            let b := swapIdx t.1 (j - 1) j
            (b, t.2 ++ [(b, [c.getD i 0])]))
          s
        (sliceMap (rotL 1) t.1 1 (i + 1), t.2)) ((List.range' 1 (n - 3)).foldl
      (fun (s : List ℕ × List IntraCand) i =>
        let t := (List.range' i (n - 2 - i)).foldl
          (fun (t : List ℕ × List IntraCand) j =>
            let b := swapIdx t.1 j (j + 1)
            (b, t.2 ++ [(b, [c.getD i 0])]))
          s
        (sliceMap (rotR 1) t.1 i (n - 1), t.2)) (c, []))) := by
    apply foldl_inv P _ _ _ _ h1
    intro t i hi ht
    rw [mem_range'_iff] at hi
    dsimp only
    have hin : P (((List.range' 2 (i - 1)).reverse).foldl
        (fun (t : List ℕ × List IntraCand) j =>
          let b := swapIdx t.1 (j - 1) j
          (b, t.2 ++ [(b, [c.getD i 0])])) t) := by
      apply foldl_inv P _ _ _ _ ht
      intro u j hj hu
      rw [List.mem_reverse, mem_range'_iff] at hj
      dsimp only
      have hb : routeLike c (swapIdx u.1 (j - 1) j) :=
        routeLike_swap c u.1 (j - 1) j hu.1 (by omega) (by omega) (by omega) (by omega)
      refine ⟨hb, fun q hq => ?_⟩
      rcases List.mem_append.mp hq with hq | hq
      · exact hu.2 q hq
      · simp only [List.mem_singleton] at hq
        subst hq
        exact hb
    refine ⟨?_, hin.2⟩
    exact routeLike_slice c _ (rotL 1) 1 (i + 1) hin.1 (rotL_perm 1) (by omega) (by omega)
      (by omega)
  exact h2.2 p hp

theorem intraMove11_routeLike (c : List ℕ) : ∀ p ∈ intraMove11 c, routeLike c p.1 := by
  intro p hp
  simp only [intraMove11] at hp
  set n := c.length with hn
  set P : List ℕ × List IntraCand → Prop :=
    fun s => routeLike c s.1 ∧ ∀ q ∈ s.2, routeLike c q.1 with hP
  have h1 : P ((List.range' 1 (n - 3)).foldl
      (fun (s : List ℕ × List IntraCand) i =>
        let t := (List.range' i (n - 2 - i)).foldl
          (fun (t : List ℕ × List IntraCand) j =>
            let b := swapIdx (swapIdx t.1 j (j + 1)) i j
            (b, t.2 ++ [(b, [c.getD i 0, c.getD (j + 1) 0])]))
          s
        (swapIdx t.1 i (n - 2), t.2)) (c, [])) := by
    apply foldl_inv P _ _ _ _ ⟨routeLike_refl c, by simp⟩
    intro t i hi ht
    rw [mem_range'_iff] at hi
    dsimp only
    have hin : P ((List.range' i (n - 2 - i)).foldl
        (fun (t : List ℕ × List IntraCand) j =>
          let b := swapIdx (swapIdx t.1 j (j + 1)) i j
          (b, t.2 ++ [(b, [c.getD i 0, c.getD (j + 1) 0])])) t) := by
      apply foldl_inv P _ _ _ _ ht
      intro u j hj hu
      rw [mem_range'_iff] at hj
      dsimp only
      have hb : routeLike c (swapIdx (swapIdx u.1 j (j + 1)) i j) :=
        routeLike_swap c _ i j
          (routeLike_swap c u.1 j (j + 1) hu.1 (by omega) (by omega) (by omega) (by omega))
          (by omega) (by omega) (by omega) (by omega)
      refine ⟨hb, fun q hq => ?_⟩
      rcases List.mem_append.mp hq with hq | hq
      · exact hu.2 q hq
      · simp only [List.mem_singleton] at hq
        subst hq
        exact hb
    exact ⟨routeLike_swap c _ i (n - 2) hin.1 (by omega) (by omega) (by omega) (by omega),
      hin.2⟩
  exact h1.2 p hp

theorem intraMove20_routeLike (c : List ℕ) : ∀ p ∈ intraMove20 c, routeLike c p.1 := by
  intro p hp
  simp only [intraMove20] at hp
  set n := c.length with hn
  set P : List ℕ × List IntraCand → Prop :=
    fun s => routeLike c s.1 ∧ ∀ q ∈ s.2, routeLike c q.1 with hP
  have h1 : P ((List.range' 1 (n - 4)).foldl
      (fun (s : List ℕ × List IntraCand) i =>
        let t := (List.range' (i + 1) (n - 3 - i)).foldl
          (fun (t : List ℕ × List IntraCand) j =>
            let b := swapIdx (swapIdx t.1 j (j + 1)) (j - 1) j
            (b, t.2 ++ [(b, [c.getD i 0, c.getD (i + 1) 0])]))
          s
        (sliceMap (rotR 2) t.1 i (n - 1), t.2)) (c, [])) := by
    apply foldl_inv P _ _ _ _ ⟨routeLike_refl c, by simp⟩
    intro t i hi ht
    rw [mem_range'_iff] at hi
    dsimp only
    have hin : P ((List.range' (i + 1) (n - 3 - i)).foldl
        (fun (t : List ℕ × List IntraCand) j =>
          let b := swapIdx (swapIdx t.1 j (j + 1)) (j - 1) j
          (b, t.2 ++ [(b, [c.getD i 0, c.getD (i + 1) 0])])) t) := by
      apply foldl_inv P _ _ _ _ ht
      intro u j hj hu
      rw [mem_range'_iff] at hj
      dsimp only
      have hb : routeLike c (swapIdx (swapIdx u.1 j (j + 1)) (j - 1) j) :=
        routeLike_swap c _ (j - 1) j
          (routeLike_swap c u.1 j (j + 1) hu.1 (by omega) (by omega) (by omega) (by omega))
          (by omega) (by omega) (by omega) (by omega)
      refine ⟨hb, fun q hq => ?_⟩
      rcases List.mem_append.mp hq with hq | hq
      · exact hu.2 q hq
      · simp only [List.mem_singleton] at hq
        subst hq
        exact hb
    exact ⟨routeLike_slice c _ (rotR 2) i (n - 1) hin.1 (rotR_perm 2) (by omega) (by omega)
      (by omega), hin.2⟩
  have h2 : P ((List.range' 2 (n - 4)).foldl
      (fun (s : List ℕ × List IntraCand) i =>
        let t := ((List.range' 1 (i - 1)).reverse).foldl
          (fun (t : List ℕ × List IntraCand) j =>
            let b := swapIdx (swapIdx t.1 (j + 1) (j + 2)) j (j + 2)
            (b, t.2 ++ [(b, [c.getD i 0, c.getD (i + 1) 0])]))
          s
        (sliceMap (rotL 2) t.1 1 (i + 2), t.2)) ((List.range' 1 (n - 4)).foldl
      (fun (s : List ℕ × List IntraCand) i =>
        let t := (List.range' (i + 1) (n - 3 - i)).foldl
          (fun (t : List ℕ × List IntraCand) j =>
            let b := swapIdx (swapIdx t.1 j (j + 1)) (j - 1) j
            (b, t.2 ++ [(b, [c.getD i 0, c.getD (i + 1) 0])]))
          s
        (sliceMap (rotR 2) t.1 i (n - 1), t.2)) (c, []))) := by
    apply foldl_inv P _ _ _ _ h1
    intro t i hi ht
    rw [mem_range'_iff] at hi
    dsimp only
    have hin : P (((List.range' 1 (i - 1)).reverse).foldl
        (fun (t : List ℕ × List IntraCand) j =>
          let b := swapIdx (swapIdx t.1 (j + 1) (j + 2)) j (j + 2)
          (b, t.2 ++ [(b, [c.getD i 0, c.getD (i + 1) 0])])) t) := by
      apply foldl_inv P _ _ _ _ ht
      intro u j hj hu
      rw [List.mem_reverse, mem_range'_iff] at hj
      dsimp only
      have hb : routeLike c (swapIdx (swapIdx u.1 (j + 1) (j + 2)) j (j + 2)) :=
        routeLike_swap c _ j (j + 2)
          (routeLike_swap c u.1 (j + 1) (j + 2) hu.1 (by omega) (by omega) (by omega)
            (by omega))
          (by omega) (by omega) (by omega) (by omega)
      refine ⟨hb, fun q hq => ?_⟩
      rcases List.mem_append.mp hq with hq | hq
      · exact hu.2 q hq
      · simp only [List.mem_singleton] at hq
        subst hq
        exact hb
    exact ⟨routeLike_slice c _ (rotL 2) 1 (i + 2) hin.1 (rotL_perm 2) (by omega) (by omega)
      (by omega), hin.2⟩
  exact h2.2 p hp

theorem intraMove21_routeLike (c : List ℕ) : ∀ p ∈ intraMove21 c, routeLike c p.1 := by
  intro p hp
  simp only [intraMove21] at hp
  set n := c.length with hn
  set P : List ℕ × List IntraCand → Prop :=
    fun s => routeLike c s.1 ∧ ∀ q ∈ s.2, routeLike c q.1 with hP
  have h1 : P ((List.range' 1 (n - 4)).foldl
      (fun (s : List ℕ × List IntraCand) i =>
        let t := (List.range' i (n - 3 - i)).foldl
          (fun (t : List ℕ × List IntraCand) j =>
            let b := swapIdx (swapIdx (swapIdx t.1 (j + 1) (j + 2)) j (j + 1)) i j
            (b, t.2 ++ [(b, [c.getD i 0, c.getD (i + 1) 0, c.getD (j + 2) 0])]))
          s
        (sliceMap (rotR 1) (swapIdx t.1 i (n - 3)) (i + 1) (n - 1), t.2)) (c, [])) := by
    apply foldl_inv P _ _ _ _ ⟨routeLike_refl c, by simp⟩
    intro t i hi ht
    rw [mem_range'_iff] at hi
    dsimp only
    have hin : P ((List.range' i (n - 3 - i)).foldl
        (fun (t : List ℕ × List IntraCand) j =>
          let b := swapIdx (swapIdx (swapIdx t.1 (j + 1) (j + 2)) j (j + 1)) i j
          (b, t.2 ++ [(b, [c.getD i 0, c.getD (i + 1) 0, c.getD (j + 2) 0])])) t) := by
      apply foldl_inv P _ _ _ _ ht
      intro u j hj hu
      rw [mem_range'_iff] at hj
      dsimp only
      have hb : routeLike c (swapIdx (swapIdx (swapIdx u.1 (j + 1) (j + 2)) j (j + 1)) i j) :=
        routeLike_swap c _ i j
          (routeLike_swap c _ j (j + 1)
            (routeLike_swap c u.1 (j + 1) (j + 2) hu.1 (by omega) (by omega) (by omega)
              (by omega))
            (by omega) (by omega) (by omega) (by omega))
          (by omega) (by omega) (by omega) (by omega)
      refine ⟨hb, fun q hq => ?_⟩
      rcases List.mem_append.mp hq with hq | hq
      · exact hu.2 q hq
      · simp only [List.mem_singleton] at hq
        subst hq
        exact hb
    refine ⟨?_, hin.2⟩
    exact routeLike_slice c _ (rotR 1) (i + 1) (n - 1)
      (routeLike_swap c _ i (n - 3) hin.1 (by omega) (by omega) (by omega) (by omega))
      (rotR_perm 1) (by omega) (by omega) (by omega)
  have h2 : P ((List.range' 2 (n - 4)).foldl
      (fun (s : List ℕ × List IntraCand) i =>
        let t := ((List.range' 1 (i - 1)).reverse).foldl
          (fun (t : List ℕ × List IntraCand) j =>
            let b := swapIdx (swapIdx (swapIdx t.1 (j + 1) (j + 2)) j (j + 2)) (j + 2) (i + 1)
            (b, t.2 ++ [(b, [c.getD i 0, c.getD (i + 1) 0, c.getD j 0])]))
          s
        (sliceMap (rotL 1) (swapIdx t.1 1 (i + 1)) 2 (i + 2), t.2)) ((List.range' 1 (n - 4)).foldl
      (fun (s : List ℕ × List IntraCand) i =>
        let t := (List.range' i (n - 3 - i)).foldl
          (fun (t : List ℕ × List IntraCand) j =>
            let b := swapIdx (swapIdx (swapIdx t.1 (j + 1) (j + 2)) j (j + 1)) i j
            (b, t.2 ++ [(b, [c.getD i 0, c.getD (i + 1) 0, c.getD (j + 2) 0])]))
          s
        (sliceMap (rotR 1) (swapIdx t.1 i (n - 3)) (i + 1) (n - 1), t.2)) (c, []))) := by
    apply foldl_inv P _ _ _ _ h1
    intro t i hi ht
    rw [mem_range'_iff] at hi
    dsimp only
    have hin : P (((List.range' 1 (i - 1)).reverse).foldl
        (fun (t : List ℕ × List IntraCand) j =>
          let b := swapIdx (swapIdx (swapIdx t.1 (j + 1) (j + 2)) j (j + 2)) (j + 2) (i + 1)
          (b, t.2 ++ [(b, [c.getD i 0, c.getD (i + 1) 0, c.getD j 0])])) t) := by
      apply foldl_inv P _ _ _ _ ht
      intro u j hj hu
      rw [List.mem_reverse, mem_range'_iff] at hj
      dsimp only
      have hb : routeLike c
          (swapIdx (swapIdx (swapIdx u.1 (j + 1) (j + 2)) j (j + 2)) (j + 2) (i + 1)) :=
        routeLike_swap c _ (j + 2) (i + 1)
          (routeLike_swap c _ j (j + 2)
            (routeLike_swap c u.1 (j + 1) (j + 2) hu.1 (by omega) (by omega) (by omega)
              (by omega))
            (by omega) (by omega) (by omega) (by omega))
          (by omega) (by omega) (by omega) (by omega)
      refine ⟨hb, fun q hq => ?_⟩
      rcases List.mem_append.mp hq with hq | hq
      · exact hu.2 q hq
      · simp only [List.mem_singleton] at hq
        subst hq
        exact hb
    refine ⟨?_, hin.2⟩
    exact routeLike_slice c _ (rotL 1) 2 (i + 2)
      (routeLike_swap c _ 1 (i + 1) hin.1 (by omega) (by omega) (by omega) (by omega))
      (rotL_perm 1) (by omega) (by omega) (by omega)
  exact h2.2 p hp

theorem intraMove22_routeLike (c : List ℕ) : ∀ p ∈ intraMove22 c, routeLike c p.1 := by
  intro p hp
  simp only [intraMove22] at hp
  set n := c.length with hn
  set P : List ℕ × List IntraCand → Prop :=
    fun s => routeLike c s.1 ∧ ∀ q ∈ s.2, routeLike c q.1 with hP
  have h1 : P ((List.range' 1 (n - 5)).foldl
      (fun (s : List ℕ × List IntraCand) i =>
        let b0 := swapIdx (swapIdx s.1 i (i + 2)) (i + 1) (i + 3)
        let t0 : List ℕ × List IntraCand :=
          (b0, s.2 ++
            [(b0, [c.getD i 0, c.getD (i + 1) 0, c.getD (i + 2) 0, c.getD (i + 3) 0])])
        let t := (List.range' (i + 3) (n - 5 - i)).foldl
          (fun (t : List ℕ × List IntraCand) j =>
            let b := swapIdx
              (swapIdx (swapIdx (swapIdx t.1 i (i + 1)) (i + 1) (j + 1)) j (j + 1)) (j - 1) j
            (b, t.2 ++ [(b, [c.getD i 0, c.getD (i + 1) 0, c.getD j 0, c.getD (j + 1) 0])]))
          t0
        (swapIdx (swapIdx t.1 i (n - 3)) (i + 1) (n - 2), t.2)) (c, [])) := by
    apply foldl_inv P _ _ _ _ ⟨routeLike_refl c, by simp⟩
    intro t i hi ht
    rw [mem_range'_iff] at hi
    dsimp only
    have hb0 : routeLike c (swapIdx (swapIdx t.1 i (i + 2)) (i + 1) (i + 3)) :=
      routeLike_swap c _ (i + 1) (i + 3)
        (routeLike_swap c t.1 i (i + 2) ht.1 (by omega) (by omega) (by omega) (by omega))
        (by omega) (by omega) (by omega) (by omega)
    have ht0 : P (swapIdx (swapIdx t.1 i (i + 2)) (i + 1) (i + 3), t.2 ++
        [(swapIdx (swapIdx t.1 i (i + 2)) (i + 1) (i + 3),
          [c.getD i 0, c.getD (i + 1) 0, c.getD (i + 2) 0, c.getD (i + 3) 0])]) := by
      refine ⟨hb0, fun q hq => ?_⟩
      rcases List.mem_append.mp hq with hq | hq
      · exact ht.2 q hq
      · simp only [List.mem_singleton] at hq
        subst hq
        exact hb0
    have hin : P ((List.range' (i + 3) (n - 5 - i)).foldl
        (fun (t : List ℕ × List IntraCand) j =>
          let b := swapIdx
            (swapIdx (swapIdx (swapIdx t.1 i (i + 1)) (i + 1) (j + 1)) j (j + 1)) (j - 1) j
          (b, t.2 ++ [(b, [c.getD i 0, c.getD (i + 1) 0, c.getD j 0, c.getD (j + 1) 0])]))
        (swapIdx (swapIdx t.1 i (i + 2)) (i + 1) (i + 3), t.2 ++
          [(swapIdx (swapIdx t.1 i (i + 2)) (i + 1) (i + 3),
            [c.getD i 0, c.getD (i + 1) 0, c.getD (i + 2) 0, c.getD (i + 3) 0])])) := by
      apply foldl_inv P _ _ _ _ ht0
      intro u j hj hu
      rw [mem_range'_iff] at hj
      dsimp only
      have hb : routeLike c (swapIdx
          (swapIdx (swapIdx (swapIdx u.1 i (i + 1)) (i + 1) (j + 1)) j (j + 1)) (j - 1) j) :=
        routeLike_swap c _ (j - 1) j
          (routeLike_swap c _ j (j + 1)
            (routeLike_swap c _ (i + 1) (j + 1)
              (routeLike_swap c u.1 i (i + 1) hu.1 (by omega) (by omega) (by omega)
                (by omega))
              (by omega) (by omega) (by omega) (by omega))
            (by omega) (by omega) (by omega) (by omega))
          (by omega) (by omega) (by omega) (by omega)
      refine ⟨hb, fun q hq => ?_⟩
      rcases List.mem_append.mp hq with hq | hq
      · exact hu.2 q hq
      · simp only [List.mem_singleton] at hq
        subst hq
        exact hb
    refine ⟨?_, hin.2⟩
    exact routeLike_swap c _ (i + 1) (n - 2)
      (routeLike_swap c _ i (n - 3) hin.1 (by omega) (by omega) (by omega) (by omega))
      (by omega) (by omega) (by omega) (by omega)
  exact h1.2 p hp

theorem intraTwoOpt_routeLike (c : List ℕ) : ∀ p ∈ intraTwoOpt c, routeLike c p.1 := by
  intro p hp
  simp only [intraTwoOpt] at hp
  set n := c.length with hn
  set P : List ℕ × List IntraCand → Prop :=
    fun s => routeLike c s.1 ∧ ∀ q ∈ s.2, routeLike c q.1 with hP
  have h1 : P ((List.range' 1 (n - 3)).foldl
      (fun (s : List ℕ × List IntraCand) i =>
        let b0 := swapIdx s.1 i (i + 1)
        let t0 : List ℕ × List IntraCand :=
          (b0, s.2 ++ [(b0, [c.getD i 0, c.getD (i + 1) 0])])
        let t := (List.range' (i + 2) (n - 3 - i)).foldl
          (fun (t : List ℕ × List IntraCand) j =>
            let b := sliceMap (rotR 1) t.1 i (j + 1)
            (b, t.2 ++ [(b, [c.getD i 0, c.getD j 0])]))
          t0
        (sliceMap List.reverse t.1 i (n - 1), t.2)) (c, [])) := by
    apply foldl_inv P _ _ _ _ ⟨routeLike_refl c, by simp⟩
    intro t i hi ht
    rw [mem_range'_iff] at hi
    dsimp only
    have hb0 : routeLike c (swapIdx t.1 i (i + 1)) :=
      routeLike_swap c t.1 i (i + 1) ht.1 (by omega) (by omega) (by omega) (by omega)
    have ht0 : P (swapIdx t.1 i (i + 1), t.2 ++
        [(swapIdx t.1 i (i + 1), [c.getD i 0, c.getD (i + 1) 0])]) := by
      refine ⟨hb0, fun q hq => ?_⟩
      rcases List.mem_append.mp hq with hq | hq
      · exact ht.2 q hq
      · simp only [List.mem_singleton] at hq
        subst hq
        exact hb0
    have hin : P ((List.range' (i + 2) (n - 3 - i)).foldl
        (fun (t : List ℕ × List IntraCand) j =>
          let b := sliceMap (rotR 1) t.1 i (j + 1)
          (b, t.2 ++ [(b, [c.getD i 0, c.getD j 0])]))
        (swapIdx t.1 i (i + 1), t.2 ++
          [(swapIdx t.1 i (i + 1), [c.getD i 0, c.getD (i + 1) 0])])) := by
      apply foldl_inv P _ _ _ _ ht0
      intro u j hj hu
      rw [mem_range'_iff] at hj
      dsimp only
      have hb : routeLike c (sliceMap (rotR 1) u.1 i (j + 1)) :=
        routeLike_slice c u.1 (rotR 1) i (j + 1) hu.1 (rotR_perm 1) (by omega) (by omega)
          (by omega)
      refine ⟨hb, fun q hq => ?_⟩
      rcases List.mem_append.mp hq with hq | hq
      · exact hu.2 q hq
      · simp only [List.mem_singleton] at hq
        subst hq
        exact hb
    refine ⟨?_, hin.2⟩
    exact routeLike_slice c _ List.reverse i (n - 1) hin.1 (fun xs => xs.reverse_perm)
      (by omega) (by omega) (by omega)
  exact h1.2 p hp

/-! ### Interior-content machinery for `inter_route` / `inter_route_3` -/

theorem interiorOptM_some (l : List ℕ) : interiorOptM (some l) = interiorM l := rfl

theorem interiorOptM_none : interiorOptM none = 0 := rfl

theorem msum_exchange (A B A2 B2 X Y : Multiset ℕ) (h1 : A2 + X = Y + A)
    (h2 : B2 + Y = X + B) : A2 + B2 = A + B := by
  have key : (A2 + B2) + (X + Y) = (A + B) + (X + Y) := by
    calc (A2 + B2) + (X + Y) = (A2 + X) + (B2 + Y) := by abel
      _ = (Y + A) + (X + B) := by rw [h1, h2]
      _ = (A + B) + (X + Y) := by abel
  exact add_right_cancel key

theorem take_succ_getD (l : List ℕ) (a : ℕ) (ha : a < l.length) :
    l.take (a + 1) = l.take a ++ [l[a]] := by
  rw [← List.take_concat_get l a ha, List.concat_eq_append]

theorem getD_drop0 (l : List ℕ) (k : ℕ) (hk : k < l.length) :
    (l.drop k).getD 0 0 = l.getD k 0 := by
  rw [List.drop_eq_getElem_cons hk, List.getD_eq_getElem l 0 hk]
  rfl

theorem drop_take_one (l : List ℕ) (k : ℕ) (hk : k < l.length) :
    (l.drop k).take 1 = [l.getD k 0] := by
  rw [List.drop_eq_getElem_cons hk, List.getD_eq_getElem l 0 hk]
  rfl

theorem drop_take_two (l : List ℕ) (k : ℕ) (hk : k + 1 < l.length) :
    (l.drop k).take 2 = [l.getD k 0, l.getD (k + 1) 0] := by
  rw [List.drop_eq_getElem_cons (show k < l.length from by omega),
    List.drop_eq_getElem_cons hk,
    List.getD_eq_getElem l 0 (show k < l.length from by omega),
    List.getD_eq_getElem l 0 hk]
  rfl

theorem swap_shift (l : List ℕ) (a v : ℕ) (ha : a < l.length) :
    swapIdx (l.take a ++ v :: l.drop a) a (a + 1) =
      l.take (a + 1) ++ v :: l.drop (a + 1) := by
  rw [List.drop_eq_getElem_cons ha]
  have hsh := swapIdx_append_shift (l.take a) (v :: l[a] :: l.drop (a + 1)) 0 1
  rw [List.length_take, Nat.min_eq_left (show a ≤ l.length from by omega)] at hsh
  simp only [Nat.add_zero] at hsh
  rw [hsh, swap_cons01, take_succ_getD l a ha, List.append_assoc,
    List.singleton_append]

theorem pair_shift (l : List ℕ) (a x y : ℕ) (ha : a < l.length) :
    swapIdx (swapIdx (l.take a ++ x :: y :: l.drop a) (a + 1) (a + 2)) a (a + 1) =
      l.take (a + 1) ++ x :: y :: l.drop (a + 1) := by
  rw [List.drop_eq_getElem_cons ha]
  have h1 := swapIdx_append_shift (l.take a) (x :: y :: l[a] :: l.drop (a + 1)) 1 2
  have h2 := swapIdx_append_shift (l.take a) (x :: l[a] :: y :: l.drop (a + 1)) 0 1
  rw [List.length_take, Nat.min_eq_left (show a ≤ l.length from by omega)] at h1 h2
  simp only [Nat.add_zero] at h2
  rw [swap_cons12] at h1
  rw [swap_cons01] at h2
  rw [h1, h2, take_succ_getD l a ha, List.append_assoc, List.singleton_append]

theorem insert_erase_restore (l : List ℕ) (k : ℕ) (hk : k < l.length) :
    (l.eraseIdx k).insertIdx k (l.getD k 0) = l := by
  rw [List.eraseIdx_eq_take_drop_succ]
  have h2 := insertIdx_append_shift (l.take k) (l.drop (k + 1)) 0 (l.getD k 0)
  rw [List.length_take, Nat.min_eq_left (show k ≤ l.length from by omega)] at h2
  simp only [Nat.add_zero] at h2
  rw [h2]
  rw [show (l.drop (k + 1)).insertIdx 0 (l.getD k 0) =
    l.getD k 0 :: l.drop (k + 1) from rfl]
  rw [List.getD_eq_getElem l 0 hk, ← List.drop_eq_getElem_cons hk,
    List.take_append_drop]

theorem erase_getD (l : List ℕ) (k : ℕ) (hk : k + 1 < l.length) :
    (l.eraseIdx k).getD k 0 = l.getD (k + 1) 0 := by
  rw [List.eraseIdx_eq_take_drop_succ]
  have h1 := getD_append_shift (l.take k) (l.drop (k + 1)) 0 0
  rw [List.length_take, Nat.min_eq_left (show k ≤ l.length from by omega)] at h1
  simp only [Nat.add_zero] at h1
  rw [h1]
  exact getD_drop0 l (k + 1) hk

theorem erase2_insert2_restore (l : List ℕ) (k : ℕ) (hk : k + 1 < l.length) :
    (((l.eraseIdx k).eraseIdx k).insertIdx k (l.getD k 0)).insertIdx (k + 1)
      (l.getD (k + 1) 0) = l := by
  have hlen : (l.take k).length = k := by
    rw [List.length_take]
    omega
  have h1 : l.eraseIdx k = l.take k ++ l.drop (k + 1) :=
    List.eraseIdx_eq_take_drop_succ l k
  have h2 : (l.take k ++ l.drop (k + 1)).eraseIdx k = l.take k ++ l.drop (k + 2) := by
    have he := eraseIdx_append_shift (l.take k) (l.drop (k + 1)) 0
    rw [hlen] at he
    simp only [Nat.add_zero] at he
    rw [he, List.drop_eq_getElem_cons hk]
    rfl
  have h3 : (l.take k ++ l.drop (k + 2)).insertIdx k (l.getD k 0) =
      l.take k ++ l.getD k 0 :: l.drop (k + 2) := by
    have hi := insertIdx_append_shift (l.take k) (l.drop (k + 2)) 0 (l.getD k 0)
    rw [hlen] at hi
    simp only [Nat.add_zero] at hi
    rw [hi]
    rfl
  have h4 : (l.take k ++ l.getD k 0 :: l.drop (k + 2)).insertIdx (k + 1)
      (l.getD (k + 1) 0) =
      l.take k ++ l.getD k 0 :: l.getD (k + 1) 0 :: l.drop (k + 2) := by
    have e : l.take k ++ l.getD k 0 :: l.drop (k + 2) =
        (l.take k ++ [l.getD k 0]) ++ l.drop (k + 2) := by simp
    rw [e]
    have hi := insertIdx_append_shift (l.take k ++ [l.getD k 0]) (l.drop (k + 2)) 0
      (l.getD (k + 1) 0)
    rw [show (l.take k ++ [l.getD k 0]).length = k + 1 from by
      rw [List.length_append, hlen]; rfl] at hi
    simp only [Nat.add_zero] at hi
    rw [hi]
    simp
  rw [h1, h2, h3, h4]
  rw [List.getD_eq_getElem l 0 (show k < l.length from by omega),
    List.getD_eq_getElem l 0 hk]
  rw [← List.drop_eq_getElem_cons hk,
    ← List.drop_eq_getElem_cons (show k < l.length from by omega)]
  exact List.take_append_drop k l

theorem set_self (l : List ℕ) (k : ℕ) (hk : k < l.length) :
    l.set k (l.getD k 0) = l := by
  rw [List.set_eq_take_cons_drop _ hk, List.getD_eq_getElem l 0 hk,
    ← List.drop_eq_getElem_cons hk, List.take_append_drop]

theorem restore_two (l : List ℕ) (k x1 x2 : ℕ)
    (hx : (l.drop k).take 2 = [x1, x2]) :
    l.take k ++ x1 :: x2 :: l.drop (k + 2) = l := by
  conv_rhs => rw [← List.take_append_drop k l]
  congr 1
  conv_rhs => rw [← List.take_append_drop 2 (l.drop k)]
  rw [hx, List.drop_drop]
  rfl

theorem move21_slide (l : List ℕ) (a x1 x2 v : ℕ) (ha : a + 1 < l.length) :
    swapIdx (swapIdx ((l.take a ++ x1 :: x2 :: l.drop (a + 1)).set (a + 2) v)
        (a + 1) (a + 2)) a (a + 1) =
      l.take a ++ v :: x1 :: x2 :: l.drop (a + 2) := by
  have hlen : (l.take a).length = a := by
    rw [List.length_take]
    omega
  have e0 : l.take a ++ x1 :: x2 :: l.drop (a + 1) =
      (l.take a ++ [x1, x2]) ++ l.drop (a + 1) := by simp
  have hlen2 : (l.take a ++ [x1, x2]).length = a + 2 := by
    rw [List.length_append, hlen]
    rfl
  have h1 := set_append_shift (l.take a ++ [x1, x2]) (l.drop (a + 1)) 0 v
  rw [hlen2] at h1
  simp only [Nat.add_zero] at h1
  have hdrop : l.drop (a + 1) = l[a + 1] :: l.drop (a + 2) := by
    rw [List.drop_eq_getElem_cons ha]
  have h1' : (l.take a ++ x1 :: x2 :: l.drop (a + 1)).set (a + 2) v =
      l.take a ++ x1 :: x2 :: v :: l.drop (a + 2) := by
    rw [e0, h1, hdrop]
    rw [show (l[a + 1] :: l.drop (a + 2)).set 0 v = v :: l.drop (a + 2) from rfl]
    simp
  rw [h1']
  have h2 := swapIdx_append_shift (l.take a) (x1 :: x2 :: v :: l.drop (a + 2)) 1 2
  rw [hlen] at h2
  rw [h2, swap_cons12]
  have h3 := swapIdx_append_shift (l.take a) (x1 :: v :: x2 :: l.drop (a + 2)) 0 1
  rw [hlen] at h3
  simp only [Nat.add_zero] at h3
  rw [h3, swap_cons01]

theorem twoOptOffset_pos (sv : ℕ → Bool) (c : List ℕ) :
    ∀ o, 1 ≤ o → 1 ≤ twoOptOffset sv c o := by
  intro o
  induction o with
  | zero => intro h; omega
  | succ o ih =>
    intro _
    cases o with
    | zero => exact le_refl 1
    | succ o2 =>
      rw [show twoOptOffset sv c (o2 + 1 + 1) =
        if sv (c.getD (o2 + 1) 0) then twoOptOffset sv c (o2 + 1) else o2 + 1 + 1
        from rfl]
      split
      · exact ih (by omega)
      · omega

theorem twoOptOffset_le (sv : ℕ → Bool) (c : List ℕ) :
    ∀ o, twoOptOffset sv c o ≤ o := by
  intro o
  induction o with
  | zero => exact le_refl 0
  | succ o ih =>
    cases o with
    | zero => exact le_refl 1
    | succ o2 =>
      rw [show twoOptOffset sv c (o2 + 1 + 1) =
        if sv (c.getD (o2 + 1) 0) then twoOptOffset sv c (o2 + 1) else o2 + 1 + 1
        from rfl]
      split
      · exact le_trans ih (by omega)
      · exact le_refl _

theorem twoOpt_interiors (cI cJ : List ℕ) (a b : ℕ) (ha1 : 1 ≤ a)
    (ha2 : a + 1 < cI.length) (hb1 : 1 ≤ b) (hb2 : b + 1 < cJ.length) :
    interiorM (cI.take a ++ cJ.drop b) + interiorM (cJ.take b ++ cI.drop a) =
      interiorM cI + interiorM cJ := by
  obtain ⟨dI, MI, eI, hIeq⟩ := exists_shape cI (by omega)
  obtain ⟨dJ, MJ, eJ, hJeq⟩ := exists_shape cJ (by omega)
  obtain ⟨a2, rfl⟩ : ∃ a2, a = a2 + 1 := ⟨a - 1, by omega⟩
  obtain ⟨b2, rfl⟩ : ∃ b2, b = b2 + 1 := ⟨b - 1, by omega⟩
  have hIlen : cI.length = MI.length + 2 := by
    rw [hIeq]
    simp
  have hJlen : cJ.length = MJ.length + 2 := by
    rw [hJeq]
    simp
  have ha3 : a2 ≤ MI.length := by omega
  have hb3 : b2 ≤ MJ.length := by omega
  subst hIeq hJeq
  rw [List.take_succ_cons, List.drop_succ_cons, List.take_succ_cons,
    List.drop_succ_cons]
  rw [List.take_append_of_le_length ha3, List.take_append_of_le_length hb3]
  rw [List.drop_append_of_le_length ha3, List.drop_append_of_le_length hb3]
  have e1 : (dI :: (MI.take a2)) ++ (MJ.drop b2 ++ [eJ]) =
      dI :: ((MI.take a2 ++ MJ.drop b2) ++ [eJ]) := by simp
  have e2 : (dJ :: (MJ.take b2)) ++ (MI.drop a2 ++ [eI]) =
      dJ :: ((MJ.take b2 ++ MI.drop a2) ++ [eI]) := by simp
  rw [e1, e2, interiorM_shape, interiorM_shape, interiorM_shape, interiorM_shape]
  conv_rhs => rw [← List.take_append_drop a2 MI, ← List.take_append_drop b2 MJ]
  rw [← Multiset.coe_add, ← Multiset.coe_add, ← Multiset.coe_add, ← Multiset.coe_add]
  abel

theorem set2_interiors (l : List ℕ) (k v1 v2 : ℕ) (h1 : 1 ≤ k)
    (h2 : k + 2 < l.length) :
    interiorM ((l.set k v1).set (k + 1) v2) + ({l.getD k 0} + {l.getD (k + 1) 0}) =
      ({v1} + {v2}) + interiorM l := by
  have e1 := interiorM_setIdx l k v1 h1 (by omega)
  have e2 := interiorM_setIdx (l.set k v1) (k + 1) v2 (by omega)
    (by rw [List.length_set]; omega)
  rw [getD_set_ne' l k (k + 1) v1 (by omega)] at e2
  rw [← Multiset.singleton_add] at e1 e2
  calc interiorM ((l.set k v1).set (k + 1) v2) + ({l.getD k 0} + {l.getD (k + 1) 0})
      = (interiorM ((l.set k v1).set (k + 1) v2) + {l.getD (k + 1) 0}) +
        {l.getD k 0} := by abel
    _ = ({v2} + interiorM (l.set k v1)) + {l.getD k 0} := by rw [e2]
    _ = {v2} + (interiorM (l.set k v1) + {l.getD k 0}) := by abel
    _ = {v2} + ({v1} + interiorM l) := by rw [e1]
    _ = ({v1} + {v2}) + interiorM l := by abel

theorem insert2_init (cJ : List ℕ) (x y : ℕ) (h : 1 ≤ cJ.length) :
    (cJ.insertIdx 1 x).insertIdx 2 y = cJ.take 1 ++ x :: y :: cJ.drop 1 := by
  rw [insertIdx_take_drop 1 cJ x (by omega)]
  rw [show cJ.take 1 ++ x :: cJ.drop 1 = (cJ.take 1 ++ [x]) ++ cJ.drop 1 from by simp]
  have h2 := insertIdx_append_shift (cJ.take 1 ++ [x]) (cJ.drop 1) 0 y
  rw [show (cJ.take 1 ++ [x]).length = 2 from by
    rw [List.length_append, List.length_take, Nat.min_eq_left h]; rfl] at h2
  simp only [Nat.add_zero] at h2
  rw [h2]
  rw [show (cJ.drop 1).insertIdx 0 y = y :: cJ.drop 1 from rfl]
  simp

theorem set_insert2_init (cJ : List ℕ) (x y : ℕ) (h : 1 < cJ.length) :
    (cJ.set 1 x).insertIdx 2 y = cJ.take 1 ++ x :: y :: cJ.drop 2 := by
  rw [List.set_eq_take_cons_drop x h]
  rw [show cJ.take 1 ++ x :: cJ.drop (1 + 1) =
    (cJ.take 1 ++ [x]) ++ cJ.drop 2 from by simp]
  have h2 := insertIdx_append_shift (cJ.take 1 ++ [x]) (cJ.drop 2) 0 y
  rw [show (cJ.take 1 ++ [x]).length = 2 from by
    rw [List.length_append, List.length_take, Nat.min_eq_left (by omega : 1 ≤ cJ.length)]
    rfl] at h2
  simp only [Nat.add_zero] at h2
  rw [h2]
  rw [show (cJ.drop 2).insertIdx 0 y = y :: cJ.drop 2 from rfl]
  simp

/-- The inner sliding loop of the `Move10` arm: starting from the buffer
`cJ` with `v` inserted at interior position `a`, each iteration snapshots
the current buffer and swaps `v` one slot to the right; all snapshots keep
the combined interior content `T`. -/
theorem slide_inner10 (cJ : List ℕ) (v : ℕ) (rI : Option (List ℕ))
    (T : Multiset ℕ) (hT : interiorOptM rI + ({v} + interiorM cJ) = T) :
    ∀ (m a : ℕ) (res : List InterCand), 1 ≤ a → a + m ≤ cJ.length →
      (∀ r ∈ res, interiorOptM r.1 + interiorOptM r.2.1 = T) →
      ((List.range' a m).foldl
          (fun (t : List ℕ × List InterCand) idxJ =>
            (swapIdx t.1 idxJ (idxJ + 1), t.2 ++ [(rI, some t.1, [v])]))
          (cJ.take a ++ v :: cJ.drop a, res)).1 =
        cJ.take (a + m) ++ v :: cJ.drop (a + m) ∧
      ∀ r ∈ ((List.range' a m).foldl
          (fun (t : List ℕ × List InterCand) idxJ =>
            (swapIdx t.1 idxJ (idxJ + 1), t.2 ++ [(rI, some t.1, [v])]))
          (cJ.take a ++ v :: cJ.drop a, res)).2,
        interiorOptM r.1 + interiorOptM r.2.1 = T := by
  intro m
  induction m with
  | zero =>
    intro a res h1 h2 hres
    constructor
    · simp
    · simpa using hres
  | succ m ih =>
    intro a res h1 h2 hres
    rw [List.range'_succ, List.foldl_cons]
    dsimp only
    rw [swap_shift cJ a v (by omega)]
    have hres2 : ∀ r ∈ res ++ [(rI, some (cJ.take a ++ v :: cJ.drop a), [v])],
        interiorOptM r.1 + interiorOptM r.2.1 = T := by
      intro r hr
      rcases List.mem_append.mp hr with hr | hr
      · exact hres r hr
      · simp only [List.mem_singleton] at hr
        subst hr
        rw [interiorOptM_some]
        have e := interiorM_insertAt cJ [v] a h1 (by omega)
        rw [show cJ.take a ++ [v] ++ cJ.drop a = cJ.take a ++ v :: cJ.drop a
          from by simp] at e
        rw [e, ← hT]
        simp
    have hrec := ih (a + 1) (res ++ [(rI, some (cJ.take a ++ v :: cJ.drop a), [v])])
      (by omega) (by omega) hres2
    refine ⟨?_, hrec.2⟩
    rw [show a + (m + 1) = a + 1 + m from by omega]
    exact hrec.1

/-- Every `Move10` inter-route candidate preserves the combined interior
content of the two routes. -/
theorem interMove10_interiors (svT : ℕ → Bool) (cI cJ : List ℕ)
    (hI : 3 ≤ cI.length) (hJ : 3 ≤ cJ.length) :
    ∀ q ∈ interMove10 svT cI cJ,
      interiorOptM q.1 + interiorOptM q.2.1 = interiorM cI + interiorM cJ := by
  intro q hq
  simp only [interMove10] at hq
  set lI := cI.length with hlI
  set lJ := cJ.length with hlJ
  set P : List ℕ × List ℕ × List InterCand → Prop := fun s =>
    s.1 = cI ∧ s.2.1 = cJ ∧ ∀ r ∈ s.2.2,
      interiorOptM r.1 + interiorOptM r.2.1 = interiorM cI + interiorM cJ with hP
  have h1 : P ((List.range' 1 (lI - 2)).foldl
      (fun (s : List ℕ × List ℕ × List InterCand) idxI =>
        if svT (cI.getD idxI 0) then
          let removed := s.1.getD idxI 0
          let bI := s.1.eraseIdx idxI
          let routeI : Option (List ℕ) := if lI = 3 then none else some bI
          let inner := (List.range' 1 (lJ - 1)).foldl
            (fun (t : List ℕ × List InterCand) idxJ =>
              (swapIdx t.1 idxJ (idxJ + 1), t.2 ++ [(routeI, some t.1, [removed])]))
            (s.2.1.insertIdx 1 removed, s.2.2)
          (bI.insertIdx idxI removed, inner.1.dropLast, inner.2)
        else s)
      (cI, cJ, [])) := by
    apply foldl_inv P _ _ _ _ ⟨rfl, rfl, by simp⟩
    intro s idxI hi hs
    rw [mem_range'_iff] at hi
    dsimp only
    by_cases hsv : svT (cI.getD idxI 0)
    · rw [if_pos hsv]
      rw [hs.1, hs.2.1]
      have hT : interiorOptM (if lI = 3 then none else some (cI.eraseIdx idxI)) +
          ({cI.getD idxI 0} + interiorM cJ) = interiorM cI + interiorM cJ := by
        have he := interiorM_erase cI idxI hi.1 (by omega)
        by_cases h3 : lI = 3
        · rw [if_pos h3]
          have hz : interiorM (cI.eraseIdx idxI) = 0 := by
            apply interiorM_short
            rw [List.length_eraseIdx_of_lt (by omega)]
            omega
          rw [hz] at he
          rw [interiorOptM_none]
          rw [← he]
          abel
        · rw [if_neg h3]
          rw [interiorOptM_some]
          rw [← he]
          abel
      rw [insertIdx_take_drop 1 cJ (cI.getD idxI 0) (by omega)]
      have hsl := slide_inner10 cJ (cI.getD idxI 0)
        (if lI = 3 then none else some (cI.eraseIdx idxI))
        (interiorM cI + interiorM cJ) hT (lJ - 1) 1 s.2.2 (by omega) (by omega)
        hs.2.2
      refine ⟨insert_erase_restore cI idxI (by omega), ?_, hsl.2⟩
      rw [hsl.1, show 1 + (lJ - 1) = lJ from by omega, hlJ, List.take_length,
        List.drop_length, List.dropLast_concat]
    · rw [if_neg hsv]
      exact hs
  exact h1.2.2 q hq

/-- Every `Move11` inter-route candidate preserves the combined interior
content of the two routes. -/
theorem interMove11_interiors (svS svT : ℕ → Bool) (cI cJ : List ℕ)
    (hI : 3 ≤ cI.length) (hJ : 3 ≤ cJ.length) :
    ∀ q ∈ interMove11 svS svT cI cJ,
      interiorOptM q.1 + interiorOptM q.2.1 = interiorM cI + interiorM cJ := by
  intro q hq
  simp only [interMove11] at hq
  set lI := cI.length with hlI
  set lJ := cJ.length with hlJ
  set P : List ℕ × List ℕ × List InterCand → Prop := fun s =>
    s.1 = cI ∧ s.2.1 = cJ ∧ ∀ r ∈ s.2.2,
      interiorOptM r.1 + interiorOptM r.2.1 = interiorM cI + interiorM cJ with hP
  have h1 : P ((List.range' 1 (lI - 2)).foldl
      (fun (s : List ℕ × List ℕ × List InterCand) idxI =>
        if svT (s.1.getD idxI 0) then
          (List.range' 1 (lJ - 2)).foldl
            (fun (u : List ℕ × List ℕ × List InterCand) idxJ =>
              if svS (u.2.1.getD idxJ 0) then
                let bI := u.1.set idxI (u.2.1.getD idxJ 0)
                let bJ := u.2.1.set idxJ (u.1.getD idxI 0)
                (u.1, u.2.1,
                  u.2.2 ++ [(some bI, some bJ, [cI.getD idxI 0, cJ.getD idxJ 0])])
              else u)
            s
        else s)
      (cI, cJ, [])) := by
    apply foldl_inv P _ _ _ _ ⟨rfl, rfl, by simp⟩
    intro s idxI hi hs
    rw [mem_range'_iff] at hi
    dsimp only
    by_cases hsv : svT (s.1.getD idxI 0)
    · rw [if_pos hsv]
      apply foldl_inv P _ _ _ _ hs
      intro u idxJ hj hu
      rw [mem_range'_iff] at hj
      by_cases hsv2 : svS (u.2.1.getD idxJ 0)
      · rw [if_pos hsv2]
        refine ⟨hu.1, hu.2.1, fun r hr => ?_⟩
        rcases List.mem_append.mp hr with hr | hr
        · exact hu.2.2 r hr
        · simp only [List.mem_singleton] at hr
          subst hr
          rw [hu.1, hu.2.1]
          rw [interiorOptM_some, interiorOptM_some]
          have e1 := interiorM_setIdx cI idxI (cJ.getD idxJ 0) hi.1 (by omega)
          have e2 := interiorM_setIdx cJ idxJ (cI.getD idxI 0) hj.1 (by omega)
          rw [← Multiset.singleton_add] at e1 e2
          exact msum_exchange (interiorM cI) (interiorM cJ) _ _
            {cI.getD idxI 0} {cJ.getD idxJ 0} e1 e2
      · rw [if_neg hsv2]
        exact hu
    · rw [if_neg hsv]
      exact hs
  exact h1.2.2 q hq

/-- The inner sliding loop of the `Move20` arm: the adjacent pair `x, y`
slides one slot to the right after each snapshot. -/
theorem slide_inner20 (cJ : List ℕ) (x y : ℕ) (rI : Option (List ℕ))
    (T : Multiset ℕ) (hT : interiorOptM rI + (({x} + {y}) + interiorM cJ) = T) :
    ∀ (m a : ℕ) (res : List InterCand), 1 ≤ a → a + m ≤ cJ.length →
      (∀ r ∈ res, interiorOptM r.1 + interiorOptM r.2.1 = T) →
      ((List.range' a m).foldl
          (fun (t : List ℕ × List InterCand) idxJ =>
            (swapIdx (swapIdx t.1 (idxJ + 1) (idxJ + 2)) idxJ (idxJ + 1),
              t.2 ++ [(rI, some t.1, [x, y])]))
          (cJ.take a ++ x :: y :: cJ.drop a, res)).1 =
        cJ.take (a + m) ++ x :: y :: cJ.drop (a + m) ∧
      ∀ r ∈ ((List.range' a m).foldl
          (fun (t : List ℕ × List InterCand) idxJ =>
            (swapIdx (swapIdx t.1 (idxJ + 1) (idxJ + 2)) idxJ (idxJ + 1),
              t.2 ++ [(rI, some t.1, [x, y])]))
          (cJ.take a ++ x :: y :: cJ.drop a, res)).2,
        interiorOptM r.1 + interiorOptM r.2.1 = T := by
  intro m
  induction m with
  | zero =>
    intro a res h1 h2 hres
    exact ⟨by simp, by simpa using hres⟩
  | succ m ih =>
    intro a res h1 h2 hres
    rw [List.range'_succ, List.foldl_cons]
    dsimp only
    rw [pair_shift cJ a x y (by omega)]
    have hres2 : ∀ r ∈ res ++ [(rI, some (cJ.take a ++ x :: y :: cJ.drop a), [x, y])],
        interiorOptM r.1 + interiorOptM r.2.1 = T := by
      intro r hr
      rcases List.mem_append.mp hr with hr | hr
      · exact hres r hr
      · simp only [List.mem_singleton] at hr
        subst hr
        rw [interiorOptM_some]
        have e := interiorM_insertAt cJ [x, y] a h1 (by omega)
        rw [show cJ.take a ++ [x, y] ++ cJ.drop a = cJ.take a ++ x :: y :: cJ.drop a
          from by simp] at e
        rw [e, ← hT]
        rw [show ((↑[x, y] : Multiset ℕ)) = {x} + {y} from by
          rw [show ([x, y] : List ℕ) = [x] ++ [y] from rfl, ← Multiset.coe_add,
            Multiset.coe_singleton, Multiset.coe_singleton]]
    have hrec := ih (a + 1)
      (res ++ [(rI, some (cJ.take a ++ x :: y :: cJ.drop a), [x, y])])
      (by omega) (by omega) hres2
    refine ⟨?_, hrec.2⟩
    rw [show a + (m + 1) = a + 1 + m from by omega]
    exact hrec.1

/-- Every `Move20` inter-route candidate preserves the combined interior
content of the two routes. -/
theorem interMove20_interiors (svT : ℕ → Bool) (cI cJ : List ℕ)
    (hI : 3 ≤ cI.length) (hJ : 3 ≤ cJ.length) :
    ∀ q ∈ interMove20 svT cI cJ,
      interiorOptM q.1 + interiorOptM q.2.1 = interiorM cI + interiorM cJ := by
  intro q hq
  simp only [interMove20] at hq
  set lI := cI.length with hlI
  set lJ := cJ.length with hlJ
  set P : List ℕ × List ℕ × List InterCand → Prop := fun s =>
    s.1 = cI ∧ s.2.1 = cJ ∧ ∀ r ∈ s.2.2,
      interiorOptM r.1 + interiorOptM r.2.1 = interiorM cI + interiorM cJ with hP
  have h1 : P ((List.range' 1 (lI - 3)).foldl
      (fun (s : List ℕ × List ℕ × List InterCand) idxI =>
        if svT (s.1.getD idxI 0) && svT (s.1.getD (idxI + 1) 0) then
          let x := s.1.getD idxI 0
          let bI1 := s.1.eraseIdx idxI
          let y := bI1.getD idxI 0
          let bI := bI1.eraseIdx idxI
          let routeI : Option (List ℕ) := if lI = 4 then none else some bI
          let inner := (List.range' 1 (lJ - 1)).foldl
            (fun (t : List ℕ × List InterCand) idxJ =>
              (swapIdx (swapIdx t.1 (idxJ + 1) (idxJ + 2)) idxJ (idxJ + 1),
                t.2 ++ [(routeI, some t.1, [x, y])]))
            ((s.2.1.insertIdx 1 x).insertIdx 2 y, s.2.2)
          ((bI.insertIdx idxI x).insertIdx (idxI + 1) y,
            inner.1.dropLast.dropLast, inner.2)
        else s)
      (cI, cJ, [])) := by
    apply foldl_inv P _ _ _ _ ⟨rfl, rfl, by simp⟩
    intro s idxI hi hs
    rw [mem_range'_iff] at hi
    dsimp only
    by_cases hsv : svT (s.1.getD idxI 0) && svT (s.1.getD (idxI + 1) 0)
    · rw [if_pos hsv]
      rw [hs.1, hs.2.1]
      rw [erase_getD cI idxI (by omega)]
      have hT : interiorOptM
          (if lI = 4 then none else some ((cI.eraseIdx idxI).eraseIdx idxI)) +
          (({cI.getD idxI 0} + {cI.getD (idxI + 1) 0}) + interiorM cJ) =
          interiorM cI + interiorM cJ := by
        have he1 := interiorM_erase cI idxI hi.1 (by omega)
        have he2 := interiorM_erase (cI.eraseIdx idxI) idxI hi.1
          (by rw [List.length_eraseIdx_of_lt (show idxI < cI.length from by omega)]
              omega)
        rw [erase_getD cI idxI (by omega)] at he2
        have hkey : interiorM ((cI.eraseIdx idxI).eraseIdx idxI) +
            ({cI.getD idxI 0} + {cI.getD (idxI + 1) 0}) = interiorM cI := by
          calc interiorM ((cI.eraseIdx idxI).eraseIdx idxI) +
              ({cI.getD idxI 0} + {cI.getD (idxI + 1) 0})
              = (interiorM ((cI.eraseIdx idxI).eraseIdx idxI) +
                  {cI.getD (idxI + 1) 0}) + {cI.getD idxI 0} := by abel
            _ = interiorM (cI.eraseIdx idxI) + {cI.getD idxI 0} := by rw [he2]
            _ = interiorM cI := he1
        by_cases h4 : lI = 4
        · rw [if_pos h4, interiorOptM_none]
          have hz : interiorM ((cI.eraseIdx idxI).eraseIdx idxI) = 0 := by
            apply interiorM_short
            rw [List.length_eraseIdx_of_lt
                (by rw [List.length_eraseIdx_of_lt
                      (show idxI < cI.length from by omega)]
                    omega),
              List.length_eraseIdx_of_lt (show idxI < cI.length from by omega)]
            omega
          rw [hz] at hkey
          rw [← hkey]
          abel
        · rw [if_neg h4, interiorOptM_some]
          rw [← hkey]
          abel
      rw [insert2_init cJ (cI.getD idxI 0) (cI.getD (idxI + 1) 0) (by omega)]
      have hsl := slide_inner20 cJ (cI.getD idxI 0) (cI.getD (idxI + 1) 0)
        (if lI = 4 then none else some ((cI.eraseIdx idxI).eraseIdx idxI))
        (interiorM cI + interiorM cJ) hT (lJ - 1) 1 s.2.2 (by omega) (by omega)
        hs.2.2
      refine ⟨erase2_insert2_restore cI idxI (by omega), ?_, hsl.2⟩
      rw [hsl.1, show 1 + (lJ - 1) = lJ from by omega, hlJ, List.take_length,
        List.drop_length]
      rw [show cJ ++ cI.getD idxI 0 :: cI.getD (idxI + 1) 0 :: ([] : List ℕ) =
        (cJ ++ [cI.getD idxI 0]) ++ [cI.getD (idxI + 1) 0] from by simp]
      rw [List.dropLast_concat, List.dropLast_concat]
    · rw [if_neg hsv]
      exact hs
  exact h1.2.2 q hq

/-- Every `Move22` inter-route candidate preserves the combined interior
content of the two routes. -/
theorem interMove22_interiors (svS svT : ℕ → Bool) (cI cJ : List ℕ)
    (hI : 3 ≤ cI.length) (hJ : 3 ≤ cJ.length) :
    ∀ q ∈ interMove22 svS svT cI cJ,
      interiorOptM q.1 + interiorOptM q.2.1 = interiorM cI + interiorM cJ := by
  intro q hq
  simp only [interMove22] at hq
  set lI := cI.length with hlI
  set lJ := cJ.length with hlJ
  set P : List ℕ × List ℕ × List InterCand → Prop := fun s =>
    s.1 = cI ∧ s.2.1 = cJ ∧ ∀ r ∈ s.2.2,
      interiorOptM r.1 + interiorOptM r.2.1 = interiorM cI + interiorM cJ with hP
  have h1 : P ((List.range' 1 (lI - 3)).foldl
      (fun (s : List ℕ × List ℕ × List InterCand) idxI =>
        if svT (s.1.getD idxI 0) && svT (s.1.getD (idxI + 1) 0) then
          (List.range' 1 (lJ - 3)).foldl
            (fun (u : List ℕ × List ℕ × List InterCand) idxJ =>
              if svS (u.2.1.getD idxJ 0) && svS (u.2.1.getD (idxJ + 1) 0) then
                let bI := (u.1.set idxI (u.2.1.getD idxJ 0)).set (idxI + 1)
                  (u.2.1.getD (idxJ + 1) 0)
                let bJ := (u.2.1.set idxJ (u.1.getD idxI 0)).set (idxJ + 1)
                  (u.1.getD (idxI + 1) 0)
                (u.1, u.2.1,
                  u.2.2 ++ [(some bI, some bJ,
                    [bI.getD idxI 0, bI.getD (idxI + 1) 0,
                      bJ.getD idxJ 0, bJ.getD (idxJ + 1) 0])])
              else u)
            s
        else s)
      (cI, cJ, [])) := by
    apply foldl_inv P _ _ _ _ ⟨rfl, rfl, by simp⟩
    intro s idxI hi hs
    rw [mem_range'_iff] at hi
    by_cases hsv : svT (s.1.getD idxI 0) && svT (s.1.getD (idxI + 1) 0)
    · rw [if_pos hsv]
      apply foldl_inv P _ _ _ _ hs
      intro u idxJ hj hu
      rw [mem_range'_iff] at hj
      by_cases hsv2 : svS (u.2.1.getD idxJ 0) && svS (u.2.1.getD (idxJ + 1) 0)
      · rw [if_pos hsv2]
        refine ⟨hu.1, hu.2.1, fun r hr => ?_⟩
        rcases List.mem_append.mp hr with hr | hr
        · exact hu.2.2 r hr
        · simp only [List.mem_singleton] at hr
          subst hr
          rw [hu.1, hu.2.1]
          rw [interiorOptM_some, interiorOptM_some]
          have e1 := set2_interiors cI idxI (cJ.getD idxJ 0) (cJ.getD (idxJ + 1) 0)
            hi.1 (by omega)
          have e2 := set2_interiors cJ idxJ (cI.getD idxI 0) (cI.getD (idxI + 1) 0)
            hj.1 (by omega)
          exact msum_exchange (interiorM cI) (interiorM cJ) _ _
            ({cI.getD idxI 0} + {cI.getD (idxI + 1) 0})
            ({cJ.getD idxJ 0} + {cJ.getD (idxJ + 1) 0}) e1 e2
      · rw [if_neg hsv2]
        exact hu
    · rw [if_neg hsv]
      exact hs
  exact h1.2.2 q hq

/-- Every `TwoOpt` inter-route candidate preserves the combined interior
content of the two routes. -/
theorem interTwoOpt_interiors (svS svT : ℕ → Bool) (cI cJ : List ℕ)
    (hI : 3 ≤ cI.length) (hJ : 3 ≤ cJ.length) :
    ∀ q ∈ interTwoOpt svS svT cI cJ,
      interiorOptM q.1 + interiorOptM q.2.1 = interiorM cI + interiorM cJ := by
  intro q hq
  simp only [interTwoOpt] at hq
  rw [List.mem_flatMap] at hq
  obtain ⟨a, ha, hq⟩ := hq
  rw [List.mem_map] at hq
  obtain ⟨b, hb, rfl⟩ := hq
  rw [mem_range'_iff] at ha hb
  have hIpos := twoOptOffset_pos svT cI (cI.length - 1) (by omega)
  have hJpos := twoOptOffset_pos svS cJ (cJ.length - 1) (by omega)
  have hIle := twoOptOffset_le svT cI (cI.length - 1)
  have hJle := twoOptOffset_le svS cJ (cJ.length - 1)
  dsimp only
  rw [interiorOptM_some, interiorOptM_some]
  exact twoOpt_interiors cI cJ a b (by omega) (by omega) (by omega) (by omega)

theorem getD_mid (P Q : List ℕ) (v k : ℕ) (hk : k = P.length) :
    (P ++ v :: Q).getD k 0 = v := by
  subst hk
  have h := getD_append_shift P (v :: Q) 0 0
  simp only [Nat.add_zero] at h
  rw [h]
  rfl

theorem set_mid (P Q : List ℕ) (v w k : ℕ) (hk : k = P.length) :
    (P ++ v :: Q).set k w = P ++ w :: Q := by
  subst hk
  have h := set_append_shift P (v :: Q) 0 w
  simp only [Nat.add_zero] at h
  rw [h]
  rfl

theorem take_mid_absorb (l : List ℕ) (a : ℕ) (Q : List ℕ) (ha : a < l.length) :
    l.take a ++ l.getD a 0 :: Q = l.take (a + 1) ++ Q := by
  rw [take_succ_getD l a ha, List.getD_eq_getElem l 0 ha, List.append_assoc,
    List.singleton_append]

theorem set_erase_next (l : List ℕ) (k v : ℕ) (hk : k + 1 < l.length) :
    (l.set k v).eraseIdx (k + 1) = l.take k ++ v :: l.drop (k + 2) := by
  rw [List.set_eq_take_cons_drop v (show k < l.length from by omega)]
  rw [show l.take k ++ v :: l.drop (k + 1) = (l.take k ++ [v]) ++ l.drop (k + 1)
    from by simp]
  have he := eraseIdx_append_shift (l.take k ++ [v]) (l.drop (k + 1)) 0
  rw [show (l.take k ++ [v]).length = k + 1 from by
    rw [List.length_append, List.length_take,
      Nat.min_eq_left (show k ≤ l.length from by omega)]
    rfl] at he
  simp only [Nat.add_zero] at he
  rw [he, List.drop_eq_getElem_cons hk]
  rw [show (l[k + 1] :: l.drop (k + 1 + 1)).eraseIdx 0 = l.drop (k + 1 + 1) from rfl]
  rw [show k + 1 + 1 = k + 2 from rfl]
  simp

theorem insert_restore_two (l : List ℕ) (k x1 x2 : ℕ) (hk : k ≤ l.length)
    (hx : (l.drop k).take 2 = [x1, x2]) :
    (l.take k ++ x1 :: l.drop (k + 2)).insertIdx (k + 1) x2 = l := by
  rw [show l.take k ++ x1 :: l.drop (k + 2) =
    (l.take k ++ [x1]) ++ l.drop (k + 2) from by simp]
  have hi2 := insertIdx_append_shift (l.take k ++ [x1]) (l.drop (k + 2)) 0 x2
  rw [show (l.take k ++ [x1]).length = k + 1 from by
    rw [List.length_append, List.length_take, Nat.min_eq_left hk]
    rfl] at hi2
  simp only [Nat.add_zero] at hi2
  rw [hi2, show (l.drop (k + 2)).insertIdx 0 x2 = x2 :: l.drop (k + 2) from rfl]
  rw [show (l.take k ++ [x1]) ++ x2 :: l.drop (k + 2) =
    l.take k ++ x1 :: x2 :: l.drop (k + 2) from by simp]
  exact restore_two l k x1 x2 hx

/-- The inner sliding loop of the `Move21` arm: `buffer_i` carries the
customer of `buffer_j` currently displaced by the pair `x1, x2`, and the pair
slides one slot to the right after each snapshot. -/
theorem slide_inner21 (svS : ℕ → Bool) (cI cJ : List ℕ) (idxI x1 x2 : ℕ)
    (hiI1 : 1 ≤ idxI) (hiI2 : idxI + 2 < cI.length)
    (hx : (cI.drop idxI).take 2 = [x1, x2]) :
    ∀ (m a : ℕ) (res : List InterCand), 1 ≤ a → a + m + 1 ≤ cJ.length →
      (∀ r ∈ res, interiorOptM r.1 + interiorOptM r.2.1 =
        interiorM cI + interiorM cJ) →
      (((List.range' a m).foldl
          (fun (t : List ℕ × List ℕ × List InterCand) idxJ =>
            let res :=
              if svS (t.2.1.getD idxJ 0) then
                t.2.2 ++ [(some t.1, some t.2.1,
                  [t.2.1.getD idxJ 0, t.2.1.getD (idxJ + 1) 0, t.1.getD idxI 0])]
              else t.2.2
            let bi := t.1.set idxI (t.2.1.getD (idxJ + 2) 0)
            let bj := t.2.1.set (idxJ + 2) (t.1.getD idxI 0)
            (bi, swapIdx (swapIdx bj (idxJ + 1) (idxJ + 2)) idxJ (idxJ + 1), res))
          (cI.take idxI ++ cJ.getD a 0 :: cI.drop (idxI + 2),
            cJ.take a ++ x1 :: x2 :: cJ.drop (a + 1), res)).1 =
        cI.take idxI ++ cJ.getD (a + m) 0 :: cI.drop (idxI + 2)) ∧
      (((List.range' a m).foldl
          (fun (t : List ℕ × List ℕ × List InterCand) idxJ =>
            let res :=
              if svS (t.2.1.getD idxJ 0) then
                t.2.2 ++ [(some t.1, some t.2.1,
                  [t.2.1.getD idxJ 0, t.2.1.getD (idxJ + 1) 0, t.1.getD idxI 0])]
              else t.2.2
            let bi := t.1.set idxI (t.2.1.getD (idxJ + 2) 0)
            let bj := t.2.1.set (idxJ + 2) (t.1.getD idxI 0)
            (bi, swapIdx (swapIdx bj (idxJ + 1) (idxJ + 2)) idxJ (idxJ + 1), res))
          (cI.take idxI ++ cJ.getD a 0 :: cI.drop (idxI + 2),
            cJ.take a ++ x1 :: x2 :: cJ.drop (a + 1), res)).2.1 =
        cJ.take (a + m) ++ x1 :: x2 :: cJ.drop (a + m + 1)) ∧
      ∀ r ∈ ((List.range' a m).foldl
          (fun (t : List ℕ × List ℕ × List InterCand) idxJ =>
            let res :=
              if svS (t.2.1.getD idxJ 0) then
                t.2.2 ++ [(some t.1, some t.2.1,
                  [t.2.1.getD idxJ 0, t.2.1.getD (idxJ + 1) 0, t.1.getD idxI 0])]
              else t.2.2
            let bi := t.1.set idxI (t.2.1.getD (idxJ + 2) 0)
            let bj := t.2.1.set (idxJ + 2) (t.1.getD idxI 0)
            (bi, swapIdx (swapIdx bj (idxJ + 1) (idxJ + 2)) idxJ (idxJ + 1), res))
          (cI.take idxI ++ cJ.getD a 0 :: cI.drop (idxI + 2),
            cJ.take a ++ x1 :: x2 :: cJ.drop (a + 1), res)).2.2,
        interiorOptM r.1 + interiorOptM r.2.1 = interiorM cI + interiorM cJ := by
  intro m
  induction m with
  | zero =>
    intro a res h1 h2 hres
    refine ⟨by simp, by simp, by simpa using hres⟩
  | succ m ih =>
    intro a res h1 h2 hres
    rw [List.range'_succ, List.foldl_cons]
    dsimp only
    have f1 : (cJ.take a ++ x1 :: x2 :: cJ.drop (a + 1)).getD (a + 2) 0 =
        cJ.getD (a + 1) 0 := by
      rw [show cJ.take a ++ x1 :: x2 :: cJ.drop (a + 1) =
        (cJ.take a ++ [x1, x2]) ++ cJ.drop (a + 1) from by simp]
      have h := getD_append_shift (cJ.take a ++ [x1, x2]) (cJ.drop (a + 1)) 0 0
      rw [show (cJ.take a ++ [x1, x2]).length = a + 2 from by
        rw [List.length_append, List.length_take,
          Nat.min_eq_left (show a ≤ cJ.length from by omega)]
        rfl] at h
      simp only [Nat.add_zero] at h
      rw [h]
      exact getD_drop0 cJ (a + 1) (by omega)
    have f2 : (cI.take idxI ++ cJ.getD a 0 :: cI.drop (idxI + 2)).getD idxI 0 =
        cJ.getD a 0 :=
      getD_mid (cI.take idxI) (cI.drop (idxI + 2)) (cJ.getD a 0) idxI
        (by rw [List.length_take]; omega)
    rw [f1, f2]
    rw [set_mid (cI.take idxI) (cI.drop (idxI + 2)) (cJ.getD a 0)
      (cJ.getD (a + 1) 0) idxI (by rw [List.length_take]; omega)]
    rw [move21_slide cJ a x1 x2 (cJ.getD a 0) (by omega)]
    rw [take_mid_absorb cJ a (x1 :: x2 :: cJ.drop (a + 2)) (by omega)]
    have hgood : ∀ r ∈ (if svS ((cJ.take a ++ x1 :: x2 :: cJ.drop (a + 1)).getD a 0)
        then res ++ [(some (cI.take idxI ++ cJ.getD a 0 :: cI.drop (idxI + 2)),
          some (cJ.take a ++ x1 :: x2 :: cJ.drop (a + 1)),
          [(cJ.take a ++ x1 :: x2 :: cJ.drop (a + 1)).getD a 0,
            (cJ.take a ++ x1 :: x2 :: cJ.drop (a + 1)).getD (a + 1) 0,
            cJ.getD a 0])]
        else res),
        interiorOptM r.1 + interiorOptM r.2.1 = interiorM cI + interiorM cJ := by
      split
      · intro r hr
        rcases List.mem_append.mp hr with hr | hr
        · exact hres r hr
        · simp only [List.mem_singleton] at hr
          subst hr
          rw [interiorOptM_some, interiorOptM_some]
          have e1 := interiorM_gen cI [cJ.getD a 0] idxI 2 hiI1 hiI2
          rw [hx] at e1
          rw [show cI.take idxI ++ [cJ.getD a 0] ++ cI.drop (idxI + 2) =
            cI.take idxI ++ cJ.getD a 0 :: cI.drop (idxI + 2) from by simp] at e1
          rw [show ((↑[x1, x2] : Multiset ℕ)) = {x1} + {x2} from by
            rw [show ([x1, x2] : List ℕ) = [x1] ++ [x2] from rfl, ← Multiset.coe_add,
              Multiset.coe_singleton, Multiset.coe_singleton],
            Multiset.coe_singleton] at e1
          have e2 := interiorM_gen cJ [x1, x2] a 1 h1 (by omega)
          rw [drop_take_one cJ a (by omega)] at e2
          rw [show cJ.take a ++ [x1, x2] ++ cJ.drop (a + 1) =
            cJ.take a ++ x1 :: x2 :: cJ.drop (a + 1) from by simp] at e2
          rw [show ((↑[x1, x2] : Multiset ℕ)) = {x1} + {x2} from by
            rw [show ([x1, x2] : List ℕ) = [x1] ++ [x2] from rfl, ← Multiset.coe_add,
              Multiset.coe_singleton, Multiset.coe_singleton],
            Multiset.coe_singleton] at e2
          exact msum_exchange (interiorM cI) (interiorM cJ) _ _ ({x1} + {x2})
            {cJ.getD a 0} e1 e2
      · exact hres
    have hrec := ih (a + 1) _ (by omega) (by omega) hgood
    refine ⟨?_, ?_, hrec.2.2⟩
    · rw [show a + (m + 1) = a + 1 + m from by omega]
      exact hrec.1
    · rw [show a + (m + 1) = a + 1 + m from by omega]
      exact hrec.2.1

/-- Every `Move21` inter-route candidate preserves the combined interior
content of the two routes. -/
theorem interMove21_interiors (svS svT : ℕ → Bool) (cI cJ : List ℕ)
    (hI : 3 ≤ cI.length) (hJ : 3 ≤ cJ.length) :
    ∀ q ∈ interMove21 svS svT cI cJ,
      interiorOptM q.1 + interiorOptM q.2.1 = interiorM cI + interiorM cJ := by
  intro q hq
  simp only [interMove21] at hq
  set lI := cI.length with hlI
  set lJ := cJ.length with hlJ
  set P : List ℕ × List ℕ × List InterCand → Prop := fun s =>
    s.1 = cI ∧ s.2.1 = cJ ∧ ∀ r ∈ s.2.2,
      interiorOptM r.1 + interiorOptM r.2.1 = interiorM cI + interiorM cJ with hP
  have h1 : P ((List.range' 1 (lI - 3)).foldl
      (fun (s : List ℕ × List ℕ × List InterCand) idxI =>
        if svT (s.1.getD idxI 0) && svT (s.1.getD (idxI + 1) 0) then
          let bI1 := s.1.set idxI (s.2.1.getD 1 0)
          let bJ1 := s.2.1.set 1 (s.1.getD idxI 0)
          let moved := bI1.getD (idxI + 1) 0
          let bI2 := bI1.eraseIdx (idxI + 1)
          let bJ2 := bJ1.insertIdx 2 moved
          let inner := (List.range' 1 (lJ - 2)).foldl
            (fun (t : List ℕ × List ℕ × List InterCand) idxJ =>
              let res :=
                if svS (t.2.1.getD idxJ 0) then
                  t.2.2 ++ [(some t.1, some t.2.1,
                    [t.2.1.getD idxJ 0, t.2.1.getD (idxJ + 1) 0, t.1.getD idxI 0])]
                else t.2.2
              let bi := t.1.set idxI (t.2.1.getD (idxJ + 2) 0)
              let bj := t.2.1.set (idxJ + 2) (t.1.getD idxI 0)
              (bi, swapIdx (swapIdx bj (idxJ + 1) (idxJ + 2)) idxJ (idxJ + 1), res))
            (bI2, bJ2, s.2.2)
          let bi1 := inner.1.set idxI (inner.2.1.getD (lJ - 1) 0)
          let bj1 := inner.2.1.set (lJ - 1) (inner.1.getD idxI 0)
          (bi1.insertIdx (idxI + 1) (bj1.getLast?.getD 0), bj1.dropLast, inner.2.2)
        else s)
      (cI, cJ, [])) := by
    apply foldl_inv P _ _ _ _ ⟨rfl, rfl, by simp⟩
    intro s idxI hi hs
    rw [mem_range'_iff] at hi
    dsimp only
    by_cases hsv : svT (s.1.getD idxI 0) && svT (s.1.getD (idxI + 1) 0)
    · rw [if_pos hsv]
      rw [hs.1, hs.2.1]
      rw [getD_set_ne' cI idxI (idxI + 1) (cJ.getD 1 0) (by omega)]
      rw [set_erase_next cI idxI (cJ.getD 1 0) (by omega)]
      rw [set_insert2_init cJ (cI.getD idxI 0) (cI.getD (idxI + 1) 0) (by omega)]
      have hx := drop_take_two cI idxI (by omega)
      have hsl := slide_inner21 svS cI cJ idxI (cI.getD idxI 0)
        (cI.getD (idxI + 1) 0) hi.1 (by omega) hx (lJ - 2) 1 s.2.2 (le_refl 1)
        (by omega) hs.2.2
      rw [show 1 + (lJ - 2) = lJ - 1 from by omega] at hsl
      rw [show lJ - 1 + 1 = lJ from by omega] at hsl
      have hdlJ : cJ.drop lJ = [] := by
        rw [hlJ]
        exact List.drop_length cJ
      rw [hdlJ] at hsl
      rw [hsl.1, hsl.2.1]
      rw [getD_mid (cJ.take (lJ - 1)) [cI.getD (idxI + 1) 0] (cI.getD idxI 0)
        (lJ - 1) (by rw [List.length_take]; omega)]
      rw [getD_mid (cI.take idxI) (cI.drop (idxI + 2)) (cJ.getD (lJ - 1) 0) idxI
        (by rw [List.length_take]; omega)]
      rw [set_mid (cI.take idxI) (cI.drop (idxI + 2)) (cJ.getD (lJ - 1) 0)
        (cI.getD idxI 0) idxI (by rw [List.length_take]; omega)]
      rw [set_mid (cJ.take (lJ - 1)) [cI.getD (idxI + 1) 0] (cI.getD idxI 0)
        (cJ.getD (lJ - 1) 0) (lJ - 1) (by rw [List.length_take]; omega)]
      rw [show (cJ.take (lJ - 1) ++ cJ.getD (lJ - 1) 0 ::
          [cI.getD (idxI + 1) 0]).getLast?.getD 0 = cI.getD (idxI + 1) 0 from by
        rw [show cJ.take (lJ - 1) ++ cJ.getD (lJ - 1) 0 :: [cI.getD (idxI + 1) 0] =
          (cJ.take (lJ - 1) ++ [cJ.getD (lJ - 1) 0]) ++ [cI.getD (idxI + 1) 0]
          from by simp]
        simp [List.getLast?_concat]]
      refine ⟨?_, ?_, hsl.2.2⟩
      · exact insert_restore_two cI idxI (cI.getD idxI 0) (cI.getD (idxI + 1) 0)
          (by omega) hx
      · rw [show cJ.take (lJ - 1) ++ cJ.getD (lJ - 1) 0 :: [cI.getD (idxI + 1) 0] =
          (cJ.take (lJ - 1) ++ [cJ.getD (lJ - 1) 0]) ++ [cI.getD (idxI + 1) 0]
          from by simp]
        rw [List.dropLast_concat]
        rw [show cJ.take (lJ - 1) ++ [cJ.getD (lJ - 1) 0] =
          cJ.take (lJ - 1) ++ cJ.getD (lJ - 1) 0 :: ([] : List ℕ) from rfl]
        rw [take_mid_absorb cJ (lJ - 1) [] (by omega)]
        rw [show lJ - 1 + 1 = lJ from by omega, hlJ, List.take_length,
          List.append_nil]
    · rw [if_neg hsv]
      exact hs
  exact h1.2.2 q hq

/-- The innermost sliding loop of the `EjectionChain` arm: the displaced
customer `d` slides rightwards through `buffer_k` after each snapshot. -/
theorem slide_inner_ej (cK : List ℕ) (d x : ℕ) (rI : Option (List ℕ))
    (bJ : List ℕ) (T : Multiset ℕ)
    (hT : interiorOptM rI + interiorM bJ + ({d} + interiorM cK) = T) :
    ∀ (m a : ℕ) (res : List Inter3Cand), 1 ≤ a → a + m ≤ cK.length →
      (∀ r ∈ res, interiorOptM r.1 + interiorM r.2.1 + interiorM r.2.2.1 = T) →
      ((List.range' a m).foldl
          (fun (u : List ℕ × List Inter3Cand) idxK =>
            (swapIdx u.1 idxK (idxK + 1),
              u.2 ++ [(rI, bJ, u.1, [x, u.1.getD idxK 0])]))
          (cK.take a ++ d :: cK.drop a, res)).1 =
        cK.take (a + m) ++ d :: cK.drop (a + m) ∧
      ∀ r ∈ ((List.range' a m).foldl
          (fun (u : List ℕ × List Inter3Cand) idxK =>
            (swapIdx u.1 idxK (idxK + 1),
              u.2 ++ [(rI, bJ, u.1, [x, u.1.getD idxK 0])]))
          (cK.take a ++ d :: cK.drop a, res)).2,
        interiorOptM r.1 + interiorM r.2.1 + interiorM r.2.2.1 = T := by
  intro m
  induction m with
  | zero =>
    intro a res h1 h2 hres
    exact ⟨by simp, by simpa using hres⟩
  | succ m ih =>
    intro a res h1 h2 hres
    rw [List.range'_succ, List.foldl_cons]
    dsimp only
    rw [swap_shift cK a d (by omega)]
    have hres2 : ∀ r ∈ res ++ [(rI, bJ, cK.take a ++ d :: cK.drop a,
        [x, (cK.take a ++ d :: cK.drop a).getD a 0])],
        interiorOptM r.1 + interiorM r.2.1 + interiorM r.2.2.1 = T := by
      intro r hr
      rcases List.mem_append.mp hr with hr | hr
      · exact hres r hr
      · simp only [List.mem_singleton] at hr
        subst hr
        have e := interiorM_insertAt cK [d] a h1 (by omega)
        rw [show cK.take a ++ [d] ++ cK.drop a = cK.take a ++ d :: cK.drop a
          from by simp, Multiset.coe_singleton] at e
        dsimp only
        rw [e]
        exact hT
    have hrec := ih (a + 1) (res ++ [(rI, bJ, cK.take a ++ d :: cK.drop a,
      [x, (cK.take a ++ d :: cK.drop a).getD a 0])]) (by omega) (by omega) hres2
    refine ⟨?_, hrec.2⟩
    rw [show a + (m + 1) = a + 1 + m from by omega]
    exact hrec.1

/-- Every `EjectionChain` candidate of `inter_route_3` preserves the combined
interior content of the three routes. -/
theorem inter_route_3_interiors (sv1 sv2 : ℕ → Bool) (cI cJ cK : List ℕ)
    (hI : 3 ≤ cI.length) (hJ : 3 ≤ cJ.length) (hK : 3 ≤ cK.length) :
    ∀ q ∈ inter_route_3 sv1 sv2 cI cJ cK,
      interiorOptM q.1 + interiorM q.2.1 + interiorM q.2.2.1 =
        interiorM cI + interiorM cJ + interiorM cK := by
  intro q hq
  simp only [inter_route_3] at hq
  set lI := cI.length with hlI
  set lJ := cJ.length with hlJ
  set lK := cK.length with hlK
  set P : List ℕ × List ℕ × List ℕ × List Inter3Cand → Prop := fun s =>
    s.1 = cI ∧ s.2.1 = cJ ∧ s.2.2.1 = cK ∧ ∀ r ∈ s.2.2.2,
      interiorOptM r.1 + interiorM r.2.1 + interiorM r.2.2.1 =
        interiorM cI + interiorM cJ + interiorM cK with hP
  have h1 : P ((List.range' 1 (lI - 2)).foldl
      (fun (s : List ℕ × List ℕ × List ℕ × List Inter3Cand) idxI =>
        if sv1 (s.1.getD idxI 0) then
          let x := s.1.getD idxI 0
          let bI := s.1.eraseIdx idxI
          let routeI : Option (List ℕ) := if bI.length = 2 then none else some bI
          let inner := (List.range' 1 (lJ - 2)).foldl
            (fun (t : List ℕ × List ℕ × List Inter3Cand) idxJ =>
              if sv2 (t.1.getD idxJ 0) then
                let bK1 := t.2.1.insertIdx 1 (t.1.getD idxJ 0)
                let bJ1 := t.1.set idxJ x
                let inner2 := (List.range' 1 (lK - 1)).foldl
                  (fun (u : List ℕ × List Inter3Cand) idxK =>
                    (swapIdx u.1 idxK (idxK + 1),
                      u.2 ++ [(routeI, bJ1, u.1, [x, u.1.getD idxK 0])]))
                  (bK1, t.2.2)
                (bJ1.set idxJ (inner2.1.getLast?.getD 0), inner2.1.dropLast,
                  inner2.2)
              else t)
            (s.2.1, s.2.2.1, s.2.2.2)
          (bI.insertIdx idxI x, inner.1, inner.2.1, inner.2.2)
        else s)
      (cI, cJ, cK, [])) := by
    apply foldl_inv P _ _ _ _ ⟨rfl, rfl, rfl, by simp⟩
    intro s idxI hi hs
    rw [mem_range'_iff] at hi
    dsimp only
    by_cases hsv : sv1 (s.1.getD idxI 0)
    · rw [if_pos hsv]
      rw [hs.1, hs.2.1, hs.2.2.1]
      set Q : List ℕ × List ℕ × List Inter3Cand → Prop := fun t =>
        t.1 = cJ ∧ t.2.1 = cK ∧ ∀ r ∈ t.2.2,
          interiorOptM r.1 + interiorM r.2.1 + interiorM r.2.2.1 =
            interiorM cI + interiorM cJ + interiorM cK with hQ
      have hmid : Q ((List.range' 1 (lJ - 2)).foldl
          (fun (t : List ℕ × List ℕ × List Inter3Cand) idxJ =>
            if sv2 (t.1.getD idxJ 0) then
              let bK1 := t.2.1.insertIdx 1 (t.1.getD idxJ 0)
              let bJ1 := t.1.set idxJ (cI.getD idxI 0)
              let inner2 := (List.range' 1 (lK - 1)).foldl
                (fun (u : List ℕ × List Inter3Cand) idxK =>
                  (swapIdx u.1 idxK (idxK + 1),
                    u.2 ++ [(if (cI.eraseIdx idxI).length = 2 then none
                        else some (cI.eraseIdx idxI), bJ1, u.1,
                      [cI.getD idxI 0, u.1.getD idxK 0])]))
                (bK1, t.2.2)
              (bJ1.set idxJ (inner2.1.getLast?.getD 0), inner2.1.dropLast,
                inner2.2)
            else t)
          (cJ, cK, s.2.2.2)) := by
        apply foldl_inv Q _ _ _ _
          (show Q (cJ, cK, s.2.2.2) from ⟨rfl, rfl, hs.2.2.2⟩)
        intro t idxJ hj ht
        rw [mem_range'_iff] at hj
        dsimp only
        by_cases hsv2 : sv2 (t.1.getD idxJ 0)
        · rw [if_pos hsv2]
          rw [ht.1, ht.2.1]
          have hroute : interiorOptM (if (cI.eraseIdx idxI).length = 2 then none
              else some (cI.eraseIdx idxI)) + {cI.getD idxI 0} = interiorM cI := by
            have he := interiorM_erase cI idxI hi.1 (by omega)
            by_cases h2 : (cI.eraseIdx idxI).length = 2
            · rw [if_pos h2, interiorOptM_none]
              have hz : interiorM (cI.eraseIdx idxI) = 0 :=
                interiorM_short _ (by omega)
              rw [hz] at he
              exact he
            · rw [if_neg h2, interiorOptM_some]
              exact he
          have hset := interiorM_setIdx cJ idxJ (cI.getD idxI 0) hj.1 (by omega)
          rw [← Multiset.singleton_add] at hset
          have hT : interiorOptM (if (cI.eraseIdx idxI).length = 2 then none
              else some (cI.eraseIdx idxI)) +
              interiorM (cJ.set idxJ (cI.getD idxI 0)) +
              ({cJ.getD idxJ 0} + interiorM cK) =
              interiorM cI + interiorM cJ + interiorM cK := by
            have key : (interiorOptM (if (cI.eraseIdx idxI).length = 2 then none
                else some (cI.eraseIdx idxI)) +
                interiorM (cJ.set idxJ (cI.getD idxI 0)) +
                ({cJ.getD idxJ 0} + interiorM cK)) + {cI.getD idxI 0} =
                (interiorM cI + interiorM cJ + interiorM cK) + {cI.getD idxI 0} := by
              calc (interiorOptM (if (cI.eraseIdx idxI).length = 2 then none
                    else some (cI.eraseIdx idxI)) +
                  interiorM (cJ.set idxJ (cI.getD idxI 0)) +
                  ({cJ.getD idxJ 0} + interiorM cK)) + {cI.getD idxI 0}
                  = (interiorOptM (if (cI.eraseIdx idxI).length = 2 then none
                      else some (cI.eraseIdx idxI)) + {cI.getD idxI 0}) +
                    ((interiorM (cJ.set idxJ (cI.getD idxI 0)) +
                      {cJ.getD idxJ 0}) + interiorM cK) := by abel
                _ = interiorM cI +
                    (({cI.getD idxI 0} + interiorM cJ) + interiorM cK) := by
                      rw [hroute, hset]
                _ = (interiorM cI + interiorM cJ + interiorM cK) +
                    {cI.getD idxI 0} := by abel
            exact add_right_cancel key
          rw [insertIdx_take_drop 1 cK (cJ.getD idxJ 0) (by omega)]
          have hsl := slide_inner_ej cK (cJ.getD idxJ 0) (cI.getD idxI 0)
            (if (cI.eraseIdx idxI).length = 2 then none
              else some (cI.eraseIdx idxI))
            (cJ.set idxJ (cI.getD idxI 0))
            (interiorM cI + interiorM cJ + interiorM cK) hT (lK - 1) 1 t.2.2
            (le_refl 1) (by omega) ht.2.2
          rw [show 1 + (lK - 1) = lK from by omega] at hsl
          have htk : cK.take lK = cK := by
            rw [hlK]
            exact List.take_length cK
          have hdk : cK.drop lK = [] := by
            rw [hlK]
            exact List.drop_length cK
          rw [htk, hdk] at hsl
          rw [hsl.1]
          rw [show (cK ++ cJ.getD idxJ 0 :: ([] : List ℕ)).getLast?.getD 0 =
            cJ.getD idxJ 0 from by simp [List.getLast?_concat]]
          rw [List.set_set, set_self cJ idxJ (by omega), List.dropLast_concat]
          exact ⟨rfl, rfl, hsl.2⟩
        · rw [if_neg hsv2]
          exact ht
      refine ⟨insert_erase_restore cI idxI (by omega), hmid.1, hmid.2.1, hmid.2.2⟩
    · rw [if_neg hsv]
      exact hs
  exact h1.2.2.2 q hq

/-- Every `intra_route` candidate keeps the route's interior-customer
multiset (the final tabu-sorting pass does not touch the route buffer). -/
theorem intra_route_interiors (c : List ℕ) (nb : Neighborhood)
    (hc : 2 ≤ c.length) :
    ∀ p ∈ intra_route c nb, interiorM p.1 = interiorM c := by
  intro p hp
  cases nb
  case Move10 =>
    simp only [intra_route] at hp
    obtain ⟨r, hr, rfl⟩ := List.mem_map.mp hp
    exact routeLike_interiorM c r.1 (intraMove10_routeLike c r hr) hc
  case Move11 =>
    simp only [intra_route] at hp
    obtain ⟨r, hr, rfl⟩ := List.mem_map.mp hp
    exact routeLike_interiorM c r.1 (intraMove11_routeLike c r hr) hc
  case Move20 =>
    simp only [intra_route] at hp
    obtain ⟨r, hr, rfl⟩ := List.mem_map.mp hp
    exact routeLike_interiorM c r.1 (intraMove20_routeLike c r hr) hc
  case Move21 =>
    simp only [intra_route] at hp
    obtain ⟨r, hr, rfl⟩ := List.mem_map.mp hp
    exact routeLike_interiorM c r.1 (intraMove21_routeLike c r hr) hc
  case Move22 =>
    simp only [intra_route] at hp
    obtain ⟨r, hr, rfl⟩ := List.mem_map.mp hp
    exact routeLike_interiorM c r.1 (intraMove22_routeLike c r hr) hc
  case TwoOpt =>
    simp only [intra_route] at hp
    obtain ⟨r, hr, rfl⟩ := List.mem_map.mp hp
    exact routeLike_interiorM c r.1 (intraTwoOpt_routeLike c r hr) hc
  case EjectionChain =>
    simp only [intra_route] at hp
    cases hp

/-! ## Claim theorems -/

/-- C1.  For every Solution `S`, `S.cost()` equals `S.working_time` times
the (abstracted) power of `1 + w_energy * energy_violation + w_capacity *
capacity_violation + w_wait * waiting_time_violation + w_fixed *
fixed_time_violation` to the configured penalty exponent, where `p0 .. p3`
are the current global penalty coefficients. -/
theorem solution_cost_formula (powf : ℚ → ℚ → ℚ) (pe p0 p1 p2 p3 : ℚ) (s : Solution) :
    Solution.cost powf pe p0 p1 p2 p3 s =
      s.working_time *
        powf
          (1 + (p0 * s.energy_violation + p1 * s.capacity_violation +
            p2 * s.waiting_time_violation + p3 * s.fixed_time_violation)) pe := by
  unfold Solution.cost
  have h : mulAdd p3 s.fixed_time_violation
      (mulAdd p2 s.waiting_time_violation
        (mulAdd p1 s.capacity_violation (mulAdd p0 s.energy_violation 1))) =
      1 + (p0 * s.energy_violation + p1 * s.capacity_violation +
        p2 * s.waiting_time_violation + p3 * s.fixed_time_violation) := by
    unfold mulAdd; ring
  rw [h]

/-- C2.  For every Solution produced by `Solution::new`, the `feasible` flag
is `true` iff all four normalized violation totals are exactly zero. -/
theorem solution_new_feasible_iff (cfg : Config) (tr : List (List TruckRouteV))
    (dr : List (List DroneRouteV)) :
    (Solution.new cfg tr dr).feasible = true ↔
      ((Solution.new cfg tr dr).energy_violation = 0 ∧
        (Solution.new cfg tr dr).capacity_violation = 0 ∧
        (Solution.new cfg tr dr).waiting_time_violation = 0 ∧
        (Solution.new cfg tr dr).fixed_time_violation = 0) := by
  simp only [Solution.new, Bool.and_eq_true, decide_eq_true_eq]
  tauto

/-- C3.  `_RouteData::_construct` (hence `Route::new` for both vehicle
classes) succeeds exactly when the sequence starts at the depot, ends at the
depot, and has length at least 3; any other sequence is deterministically
rejected. -/
theorem route_construct_validates (distances : ℕ → ℕ → ℚ) (demands : ℕ → ℚ)
    (cs : List ℕ) :
    (RouteData.construct distances demands cs).isSome = true ↔
      (cs.head? = some 0 ∧ cs.getLast? = some 0 ∧ 3 ≤ cs.length) := by
  by_cases h : cs.head? = some 0 ∧ cs.getLast? = some 0 ∧ 3 ≤ cs.length <;>
    simp [RouteData.construct, h]

/-- C5.  Tabu-list maintenance in `Neighborhood::search`: starting within the
bound, the updated list never exceeds `tabu_size`; a present (sorted)
attribute set is promoted to the most-recent position by a permutation of the
list (hence never duplicated); an absent one is appended, and the oldest
entry is evicted when the bound would be exceeded. -/
theorem search_tabu_maintenance (L : List (List ℕ)) (t : List ℕ) (size : ℕ)
    (hbound : L.length ≤ size) :
    (search_update_tabu L t size).length ≤ size ∧
      (t ∈ L →
        List.Perm (search_update_tabu L t size) L ∧
          (search_update_tabu L t size).getLast? = some t) ∧
      (t ∉ L →
        (L.length < size → search_update_tabu L t size = L ++ [t]) ∧
          (L.length = size → 1 ≤ size → search_update_tabu L t size = L.tail ++ [t])) := by
  by_cases hm : t ∈ L
  · have hfi : L.findIdx? (fun x => decide (x = t)) =
        some (L.findIdx (fun x => decide (x = t))) :=
      List.findIdx?_eq_some_of_exists ⟨t, hm, by simp⟩
    obtain ⟨hlt, hp, -⟩ := List.findIdx?_eq_some_iff_getElem.mp hfi
    have hres : search_update_tabu L t size =
        L.take (L.findIdx (fun x => decide (x = t))) ++
          (L.drop (L.findIdx (fun x => decide (x = t)))).rotate 1 := by
      unfold search_update_tabu
      rw [hfi]
    have hget : L[L.findIdx (fun x => decide (x = t))] = t := by
      simpa using hp
    have hdrop : L.drop (L.findIdx (fun x => decide (x = t))) =
        t :: L.drop (L.findIdx (fun x => decide (x = t)) + 1) := by
      rw [List.drop_eq_getElem_cons hlt, hget]
    have hsplit : L = L.take (L.findIdx (fun x => decide (x = t))) ++
        (t :: L.drop (L.findIdx (fun x => decide (x = t)) + 1)) := by
      conv_lhs => rw [← List.take_append_drop (L.findIdx (fun x => decide (x = t))) L]
      rw [hdrop]
    have hperm : List.Perm (search_update_tabu L t size) L := by
      rw [hres, hdrop, List.rotate_cons_succ, List.rotate_zero]
      have hstep : List.Perm
          (L.take (L.findIdx (fun x => decide (x = t))) ++
            (L.drop (L.findIdx (fun x => decide (x = t)) + 1) ++ [t]))
          (L.take (L.findIdx (fun x => decide (x = t))) ++
            (t :: L.drop (L.findIdx (fun x => decide (x = t)) + 1))) :=
        List.Perm.append_left _ (List.perm_append_singleton _ _)
      rw [← hsplit] at hstep
      exact hstep
    refine ⟨?_, fun _ => ⟨hperm, ?_⟩, fun hc => absurd hm hc⟩
    · rw [hperm.length_eq]
      exact hbound
    · rw [hres, hdrop, List.rotate_cons_succ, List.rotate_zero]
      rw [List.getLast?_append, List.getLast?_append]
      rfl
  · have hfi : L.findIdx? (fun x => decide (x = t)) = none := by
      rw [List.findIdx?_eq_none_iff]
      intro x hx
      simp only [decide_eq_false_iff_not]
      intro h
      exact hm (h ▸ hx)
    have hres : search_update_tabu L t size =
        if size < (L ++ [t]).length then (L ++ [t]).eraseIdx 0 else L ++ [t] := by
      unfold search_update_tabu
      rw [hfi]
    refine ⟨?_, fun hc => absurd hc hm, fun _ => ⟨fun hlt => ?_, fun heq h1 => ?_⟩⟩
    · rw [hres]
      by_cases hc : size < (L ++ [t]).length
      · rw [if_pos hc, List.length_eraseIdx_of_lt (by simp)]
        simp only [List.length_append, List.length_cons, List.length_nil]
        omega
      · rw [if_neg hc]
        simp only [List.length_append, List.length_cons, List.length_nil] at hc ⊢
        omega
    · rw [hres, if_neg (by simp; omega)]
    · rw [hres, if_pos (by simp; omega)]
      cases L with
      | nil => exfalso; simp at heq; omega
      | cons a L2 => rfl

/-- C6 counterexample: with `max_elite_size = 0` (the command-line default
value), `tabu_search` still pushes the root solution into `elite_set`
unconditionally, so the elite set holds 1 > 0 = `max_elite_size` solutions. -/
theorem elite_size_counterexample :
    ¬((tabu_search_initial_elite (Solution.new ⟨1, 1, 1, 1, 1⟩ [] [])).length ≤ 0) := by
  simp [tabu_search_initial_elite]

/-- C6 (amended).  Provided `max_elite_size ≥ 1`: the elite-set insertion of
`_record_new_solution` keeps the elite set within `max_elite_size`, and when
the set is at capacity it removes a member whose Hamming distance
(successor-customer mismatch count) to the newly found global best is
minimal before pushing the new solution. -/
theorem elite_set_bound_and_eviction (n max_elite_size : ℕ) (best nb dflt : Solution)
    (elite : List Solution) (hmax : 1 ≤ max_elite_size)
    (hlen : elite.length ≤ max_elite_size) :
    (record_elite_insertion max_elite_size
        (fun s => Solution.hamming_distance n s best) elite nb).length ≤ max_elite_size ∧
      (elite.length = max_elite_size →
        record_elite_insertion max_elite_size
            (fun s => Solution.hamming_distance n s best) elite nb =
          elite.eraseIdx
              (min_by_key_idx (fun s => Solution.hamming_distance n s best) elite) ++
            [nb] ∧
          ∀ s ∈ elite,
            Solution.hamming_distance n
                (elite.getD
                  (min_by_key_idx (fun s => Solution.hamming_distance n s best) elite)
                  dflt) best ≤
              Solution.hamming_distance n s best) := by
  have hpos : 0 < max_elite_size := hmax
  by_cases hcap : elite.length = max_elite_size
  · have hne : elite ≠ [] := by
      intro h
      rw [h] at hcap
      simp at hcap
      omega
    obtain ⟨hidx, hminp⟩ :=
      min_by_key_idx_spec (fun s => Solution.hamming_distance n s best) elite hne
    have hres : record_elite_insertion max_elite_size
        (fun s => Solution.hamming_distance n s best) elite nb =
        elite.eraseIdx
            (min_by_key_idx (fun s => Solution.hamming_distance n s best) elite) ++
          [nb] := by
      unfold record_elite_insertion
      rw [if_pos hpos, if_pos hcap]
    refine ⟨?_, fun _ => ⟨hres, fun s hs => hminp dflt s hs⟩⟩
    rw [hres]
    simp only [List.length_append, List.length_cons, List.length_nil,
      List.length_eraseIdx_of_lt hidx]
    omega
  · have hres : record_elite_insertion max_elite_size
        (fun s => Solution.hamming_distance n s best) elite nb = elite ++ [nb] := by
      unfold record_elite_insertion
      rw [if_pos hpos, if_neg hcap]
    refine ⟨?_, fun hc => absurd hc hcap⟩
    rw [hres]
    simp only [List.length_append, List.length_cons, List.length_nil]
    omega

/-- Witness for the amended C6 at a singleton elite set of capacity 1. -/
theorem elite_set_bound_and_eviction_witness :
    (record_elite_insertion 1
        (fun s =>
          Solution.hamming_distance 1 s (Solution.new ⟨1, 1, 1, 1, 1⟩ [] []))
        [Solution.new ⟨1, 1, 1, 1, 1⟩ [] []]
        (Solution.new ⟨1, 1, 1, 1, 1⟩ [] [])).length ≤ 1 :=
  (elite_set_bound_and_eviction 1 1 (Solution.new ⟨1, 1, 1, 1, 1⟩ [] [])
    (Solution.new ⟨1, 1, 1, 1, 1⟩ [] []) (Solution.new ⟨1, 1, 1, 1, 1⟩ [] [])
    [Solution.new ⟨1, 1, 1, 1, 1⟩ [] []] (le_refl 1) (by simp)).1

/-- C7.  Starting from the initial value 1, the penalty coefficient stays in
the interval `[1, 1000]` after any number of adaptation steps, so every value
ever read by the cost function lies in `[1, 1000]`. -/
theorem penalty_coeff_bounds (violations : List ℚ) :
    1 ≤ penalty_coeff_after violations ∧ penalty_coeff_after violations ≤ 1000 :=
  foldl_update_violation_bounds violations 1 (le_refl 1) (by norm_num)

/-- C8.  `destroy_and_repair` forces all four penalty coefficients to 1000
for the repair phase and restores the exact entry values afterwards: the
whole call leaves the penalty state unchanged. -/
theorem destroy_and_repair_penalty_frame (p : PenaltyState) :
    (destroy_and_repair_penalty p).1 = (fun _ => 1000) ∧
      (destroy_and_repair_penalty p).2 = p := by
  constructor <;> funext i <;> fin_cases i <;>
    simp [destroy_and_repair_penalty, penaltyStore, Function.update]

/-- C9.  `Move(1,0)` is not commutative: for the length-4 routes
`[0, 1, 2, 0]` and `[0, 3, 4, 0]` the candidate sets of the two directions
differ; accordingly the driver flags `Move10`, `Move20`, `Move21` as
asymmetric and `iterate_route_j` explicitly appends the swapped-direction
search for them. -/
theorem move10_not_commutative :
    inter_route (fun _ => true) (fun _ => true) [0, 1, 2, 0] [0, 3, 4, 0]
        Neighborhood.Move10 ≠
      inter_route (fun _ => true) (fun _ => true) [0, 3, 4, 0] [0, 1, 2, 0]
        Neighborhood.Move10 ∧
    Neighborhood.asymmetric Neighborhood.Move10 = true ∧
    Neighborhood.asymmetric Neighborhood.Move20 = true ∧
    Neighborhood.asymmetric Neighborhood.Move21 = true ∧
    ∀ svI svJ : ℕ → Bool, ∀ cI cJ : List ℕ,
      iterate_route_j_neighbors svI svJ cI cJ Neighborhood.Move10 =
        inter_route svI svJ cI cJ Neighborhood.Move10 ++
          (inter_route svJ svI cJ cI Neighborhood.Move10).map
            (fun t => (t.2.1, t.1, t.2.2)) := by
  refine ⟨by decide, rfl, rfl, rfl, fun svI svJ cI cJ => ?_⟩
  simp [iterate_route_j_neighbors, Neighborhood.asymmetric]

/-- C10.  For a valid route (depot-bounded, length at least 3), `push`
inserts the new customer immediately before the terminal depot and `pop`
removes exactly that element, so `pop` is a left inverse of `push` on the
customer sequence. -/
theorem push_pop_id (cs : List ℕ) (c : ℕ) (h3 : 3 ≤ cs.length)
    (hhead : cs.head? = some 0) (hlast : cs.getLast? = some 0) :
    Route.pop (Route.push cs c) = cs ∧ Route.push cs c = cs.dropLast ++ [c, 0] := by
  obtain ⟨M, hM⟩ : ∃ M, cs = M ++ [0] :=
    ⟨cs.dropLast, (List.dropLast_append_getLast? 0 hlast).symm⟩
  subst hM
  have hpush : Route.push (M ++ [0]) c = M ++ [c, 0] := by
    unfold Route.push
    have e1 : (M ++ [0]).length - 1 = M.length + 0 := by simp
    rw [e1, insertIdx_append_shift]
    rfl
  refine ⟨?_, by simpa using hpush⟩
  rw [hpush]
  unfold Route.pop
  have e2 : (M ++ [c, 0]).length - 2 = M.length + 0 := by simp
  rw [e2, eraseIdx_append_shift]
  rfl

/-- Witness for C10 at the route `[0, 1, 0]` with new customer `2`. -/
theorem push_pop_id_witness :
    Route.pop (Route.push [0, 1, 0] 2) = [0, 1, 0] ∧
      Route.push [0, 1, 0] 2 = [0, 1, 0].dropLast ++ [2, 0] :=
  push_pop_id [0, 1, 0] 2 (by decide) (by decide) (by decide)

/-- Witness for C5 at the tabu list `[[1, 2]]`, absent attribute set `[3]`,
bound 2: the updated list stays within the bound (and equals the append,
since the list was below capacity). -/
theorem search_tabu_maintenance_witness :
    (search_update_tabu [[1, 2]] [3] 2).length ≤ 2 ∧
      search_update_tabu [[1, 2]] [3] 2 = [[1, 2], [3]] :=
  ⟨(search_tabu_maintenance [[1, 2]] [3] 2 (by decide)).1, by decide⟩

/-- C4.  For every neighborhood operator, every pair (resp. triple) of
depot-bounded routes, and every generated candidate: the sum of the
interior-customer multisets over the candidate's output routes equals the
sum over the input routes — no customer is created, lost, or duplicated by
`inter_route`, `intra_route`, or `inter_route_3` (a `None` route slot
contributes nothing: the source route collapsed to `[0, 0]`). -/
theorem neighborhood_moves_preserve_customers
    (nb : Neighborhood) (svS svT sv1 sv2 : ℕ → Bool) (cI cJ cK c : List ℕ)
    (hI : 3 ≤ cI.length) (hJ : 3 ≤ cJ.length) (hK : 3 ≤ cK.length)
    (hc : 3 ≤ c.length) :
    (∀ q ∈ inter_route svS svT cI cJ nb,
        interiorOptM q.1 + interiorOptM q.2.1 = interiorM cI + interiorM cJ) ∧
      (∀ p ∈ intra_route c nb, interiorM p.1 = interiorM c) ∧
      (∀ q ∈ inter_route_3 sv1 sv2 cI cJ cK,
        interiorOptM q.1 + interiorM q.2.1 + interiorM q.2.2.1 =
          interiorM cI + interiorM cJ + interiorM cK) := by
  refine ⟨?_, intra_route_interiors c nb (by omega),
    inter_route_3_interiors sv1 sv2 cI cJ cK hI hJ hK⟩
  cases nb
  case Move10 => exact interMove10_interiors svT cI cJ hI hJ
  case Move11 => exact interMove11_interiors svS svT cI cJ hI hJ
  case Move20 => exact interMove20_interiors svT cI cJ hI hJ
  case Move21 => exact interMove21_interiors svS svT cI cJ hI hJ
  case Move22 => exact interMove22_interiors svS svT cI cJ hI hJ
  case TwoOpt => exact interTwoOpt_interiors svS svT cI cJ hI hJ
  case EjectionChain =>
    intro q hq
    rw [show inter_route svS svT cI cJ Neighborhood.EjectionChain =
      ([] : List InterCand) from rfl] at hq
    cases hq

/-- Witness for C4: the first `Move10` candidate for routes `[0, 1, 2, 0]`
and `[0, 3, 4, 0]` moves customer 1 into the second route, and its interior
content `{2} + {1, 3, 4}` matches the input content `{1, 2} + {3, 4}`. -/
theorem neighborhood_moves_preserve_customers_witness :
    interiorOptM (some [0, 2, 0]) + interiorOptM (some [0, 1, 3, 4, 0]) =
      interiorM [0, 1, 2, 0] + interiorM [0, 3, 4, 0] :=
  (neighborhood_moves_preserve_customers Neighborhood.Move10
      (fun _ => true) (fun _ => true) (fun _ => true) (fun _ => true)
      [0, 1, 2, 0] [0, 3, 4, 0] [0, 5, 6, 0] [0, 1, 2, 3, 0]
      (by decide) (by decide) (by decide) (by decide)).1
    (some [0, 2, 0], some [0, 1, 3, 4, 0], [1]) (by decide)

end MTMV
